import Mathlib

/-!
# Verification of `count_loc.py` (LOC aggregator)

Shallow embedding of `.github/scripts/count_loc.py`:
* strings are modelled as `List Char`;
* Python dicts are modelled as insertion-ordered association lists
  (`dictInsert` overwrites in place, like Python dict assignment);
* the GitHub GraphQL provider is modelled as a stream of page outcomes
  (`Gql`), one per request made by the pagination recursion; an outcome is
  either a fatal error (`_graphql_request` raises: 401, other 4xx, network
  error, non-rate-limit GraphQL error), a transient failure
  (`_graphql_request` returns `None`: 403, 5xx, `RATE_LIMITED`), or a page
  of data;
* fallible code returns `Except Unit`.
-/

set_option maxRecDepth 8000

/-! ## Python dict as insertion-ordered association list -/

/-- Python `dict[k] = v`: overwrite in place if the key exists, else append. -/
def dictInsert {α : Type} (k : List Char) (v : α) :
    List (List Char × α) → List (List Char × α)
  | [] => [(k, v)]
  | (k', v') :: rest =>
    if k' = k then (k', v) :: rest else (k', v') :: dictInsert k v rest

/-- Python `d.get(k)`: the value at key `k`, if present. -/
def dictGet {α : Type} (k : List Char) : List (List Char × α) → Option α
  | [] => none
  | (k', v) :: rest => if k' = k then some v else dictGet k rest

/-- The keys of a dict, in insertion order (Python `d.keys()`). -/
def dictKeys {α : Type} (d : List (List Char × α)) : List (List Char) :=
  d.map Prod.fst

/-- Python `set(xs) == set(ys)` on key lists. -/
def sameKeySet (xs ys : List (List Char)) : Bool :=
  (xs.all fun k => decide (k ∈ ys)) && (ys.all fun k => decide (k ∈ xs))

/-! ## Python string splitting -/

/-- Accumulator version of Python `str.split()` (split on whitespace runs,
dropping empty fields); `acc` holds the current token reversed. -/
def pySplitAux : List Char → List Char → List (List Char)
  | [], acc => if acc.isEmpty then [] else [acc.reverse]
  | c :: rest, acc =>
    if c.isWhitespace then
      if acc.isEmpty then pySplitAux rest [] else acc.reverse :: pySplitAux rest []
    else pySplitAux rest (c :: acc)

/-- Python `line.split()` with no separator argument: split on runs of
whitespace, no empty fields.  (Lean's `Char.isWhitespace` covers the ASCII
whitespace actually present in the cache file: spaces and newlines.) -/
def pySplit (s : List Char) : List (List Char) := pySplitAux s []

/-- Python `s.split(sep)` for a one-character separator: keeps empty fields,
`"".split(sep) = ['']`. -/
def splitOnCharAux (sep : Char) : List Char → List Char → List (List Char)
  | [], acc => [acc.reverse]
  | c :: rest, acc =>
    if c = sep then acc.reverse :: splitOnCharAux sep rest []
    else splitOnCharAux sep rest (c :: acc)

/-- Python `s.split(sep)`. -/
def splitOnChar (sep : Char) (s : List Char) : List (List Char) :=
  splitOnCharAux sep s []

/-! ## Decimal rendering (`str(int)` / f-strings) and parsing (`int(str)`) -/

/-- The decimal digit character of `d` (for `d < 10`). -/
def digitCh (d : Nat) : Char := Char.ofNat (48 + d)

/-- Fuel-based decimal rendering of a natural number, most significant digit
first; structural recursion so that the kernel can evaluate it. -/
def natCharsAux : Nat → Nat → List Char → List Char
  | 0, _, acc => acc
  | fuel + 1, n, acc =>
    if n < 10 then digitCh n :: acc
    else natCharsAux fuel (n / 10) (digitCh (n % 10) :: acc)

/-- Python `str(n)` for a natural number. -/
def natChars (n : Nat) : List Char := natCharsAux (n + 1) n []

/-- Python `str(i)` for an integer (`f"{i}"` in the cache-writing f-string). -/
def intRepr (i : Int) : List Char :=
  if i < 0 then '-' :: natChars i.natAbs else natChars i.natAbs

/-- Value of a nonempty all-decimal-digit string (most significant first). -/
def digitsVal (s : List Char) : Nat :=
  s.foldl (fun a c => a * 10 + (c.toNat - 48)) 0

/-- Parse of a digit string: `some` iff nonempty and all ASCII decimal digits. -/
def digitsVal? (s : List Char) : Option Nat :=
  if s ≠ [] ∧ s.all Char.isDigit then some (digitsVal s) else none

/-- Python `int(s)` restricted to an optional single leading sign followed by
ASCII decimal digits.  (Python additionally accepts surrounding whitespace,
single underscores between digits and non-ASCII decimal digits; none of those
forms is ever produced by the script's own cache writer, and any input
rejected here but accepted by Python still yields an integer entry there.) -/
def pyInt? : List Char → Option Int
  | [] => none
  | c :: rest =>
    if c = '+' then (digitsVal? rest).map Int.ofNat
    else if c = '-' then (digitsVal? rest).map fun n => -(n : Int)
    else (digitsVal? (c :: rest)).map Int.ofNat

/-! ## Basic lemmas about the dict operations -/

theorem dictGet_dictInsert_self {α : Type} (k : List Char) (v : α)
    (d : List (List Char × α)) : dictGet k (dictInsert k v d) = some v := by
  induction d with
  | nil => simp [dictInsert, dictGet]
  | cons p rest ih =>
    obtain ⟨k', v'⟩ := p
    by_cases h : k' = k <;> simp [dictInsert, dictGet, h, ih]

theorem mem_dictKeys_cons {α : Type} (k k' : List Char) (v' : α)
    (rest : List (List Char × α)) :
    (k ∈ dictKeys ((k', v') :: rest)) ↔ (k = k' ∨ k ∈ dictKeys rest) := by
  have h : dictKeys ((k', v') :: rest) = k' :: dictKeys rest := rfl
  rw [h, List.mem_cons]

theorem dictInsert_eq_append {α : Type} (k : List Char) (v : α)
    (d : List (List Char × α)) (h : k ∉ dictKeys d) :
    dictInsert k v d = d ++ [(k, v)] := by
  induction d with
  | nil => simp [dictInsert]
  | cons p rest ih =>
    obtain ⟨k', v'⟩ := p
    rw [mem_dictKeys_cons] at h
    push_neg at h
    have hne : ¬ k' = k := fun hx => h.1 hx.symm
    rw [dictInsert, if_neg hne, ih h.2, List.cons_append]

theorem dictKeys_dictInsert {α : Type} (k : List Char) (v : α)
    (d : List (List Char × α)) :
    dictKeys (dictInsert k v d) = if k ∈ dictKeys d then dictKeys d
      else dictKeys d ++ [k] := by
  induction d with
  | nil => rfl
  | cons p rest ih =>
    obtain ⟨k', v'⟩ := p
    by_cases h : k' = k
    · subst h
      rw [dictInsert, if_pos rfl,
        if_pos ((mem_dictKeys_cons k' k' v' rest).mpr (Or.inl rfl))]
      rfl
    · rw [dictInsert, if_neg h]
      have hcons : dictKeys (((k', v') :: dictInsert k v rest)) =
          k' :: dictKeys (dictInsert k v rest) := rfl
      rw [hcons, ih]
      by_cases hm : k ∈ dictKeys rest
      · rw [if_pos hm, if_pos ((mem_dictKeys_cons k k' v' rest).mpr (Or.inr hm))]
        rfl
      · rw [if_neg hm, if_neg]
        · rfl
        · rw [mem_dictKeys_cons]
          push_neg
          exact ⟨fun hx => h hx.symm, hm⟩

theorem dictKeys_nodup_dictInsert {α : Type} (k : List Char) (v : α)
    (d : List (List Char × α)) (h : (dictKeys d).Nodup) :
    (dictKeys (dictInsert k v d)).Nodup := by
  rw [dictKeys_dictInsert]
  by_cases hm : k ∈ dictKeys d
  · rwa [if_pos hm]
  · rw [if_neg hm]
    exact List.Nodup.append h (by simp) (by simpa using hm)

/-- Looking a key up in an association list with `Nodup` keys finds the
(unique) pair holding it. -/
theorem dictGet_of_mem {α : Type} {d : List (List Char × α)} {k : List Char}
    {v : α} (hnd : (dictKeys d).Nodup) (hmem : (k, v) ∈ d) :
    dictGet k d = some v := by
  induction d with
  | nil => simp at hmem
  | cons p rest ih =>
    obtain ⟨k', v'⟩ := p
    have hnd' : k' ∉ dictKeys rest ∧ (dictKeys rest).Nodup := by
      have : dictKeys ((k', v') :: rest) = k' :: dictKeys rest := rfl
      rw [this] at hnd
      exact List.nodup_cons.mp hnd
    rcases List.mem_cons.mp hmem with h | h
    · rw [Prod.mk.injEq] at h
      rw [dictGet, if_pos h.1.symm, h.2]
    · have hk : ¬ k' = k := by
        rintro rfl
        exact hnd'.1 (List.mem_map_of_mem Prod.fst h)
      rw [dictGet, if_neg hk]
      exact ih hnd'.2 h

theorem dictGet_eq_none {α : Type} {d : List (List Char × α)} {k : List Char}
    (h : k ∉ dictKeys d) : dictGet k d = none := by
  induction d with
  | nil => rfl
  | cons p rest ih =>
    obtain ⟨k', v'⟩ := p
    rw [mem_dictKeys_cons] at h
    push_neg at h
    rw [dictGet, if_neg fun hx => h.1 hx.symm]
    exact ih h.2

/-! ## Correctness of decimal rendering and parsing -/

/-- The most-significant-first decimal digit list of `n` (with `[0]` for 0). -/
def natDigitsList (n : Nat) : List Nat :=
  if n = 0 then [0] else (Nat.digits 10 n).reverse

theorem natDigitsList_lt_ten (n : Nat) : ∀ d ∈ natDigitsList n, d < 10 := by
  intro d hd
  unfold natDigitsList at hd
  by_cases h : n = 0
  · rw [if_pos h] at hd
    simp at hd
    omega
  · rw [if_neg h, List.mem_reverse] at hd
    exact Nat.digits_lt_base (by norm_num) hd

theorem natCharsAux_eq (fuel : Nat) : ∀ n acc, n < fuel →
    natCharsAux fuel n acc = (natDigitsList n).map digitCh ++ acc := by
  induction fuel with
  | zero => intro n acc h; omega
  | succ f ih =>
    intro n acc h
    by_cases h10 : n < 10
    · rw [natCharsAux, if_pos h10]
      by_cases h0 : n = 0
      · subst h0; rfl
      · unfold natDigitsList
        rw [if_neg h0]
        rw [Nat.digits_def' (by norm_num : (1:Nat) < 10) (Nat.pos_of_ne_zero h0)]
        rw [Nat.div_eq_of_lt h10]
        simp [Nat.mod_eq_of_lt h10]
    · rw [natCharsAux, if_neg h10]
      have hdiv : n / 10 < f := by omega
      rw [ih (n / 10) _ hdiv]
      unfold natDigitsList
      have hn0 : n ≠ 0 := by omega
      have hq0 : n / 10 ≠ 0 := by omega
      rw [if_neg hn0, if_neg hq0]
      rw [Nat.digits_def' (by norm_num : (1:Nat) < 10) (Nat.pos_of_ne_zero hn0)]
      simp [List.reverse_cons]

theorem natChars_eq (n : Nat) : natChars n = (natDigitsList n).map digitCh := by
  have h := natCharsAux_eq (n + 1) n [] (by omega)
  simpa [natChars] using h

theorem digitCh_isDigit {d : Nat} (h : d < 10) : (digitCh d).isDigit = true := by
  interval_cases d <;> decide

theorem digitCh_toNat {d : Nat} (h : d < 10) : (digitCh d).toNat = 48 + d := by
  interval_cases d <;> decide

theorem digitCh_not_ws {d : Nat} (h : d < 10) :
    (digitCh d).isWhitespace = false := by
  interval_cases d <;> decide

theorem digitCh_ne_plus {d : Nat} (h : d < 10) : digitCh d ≠ '+' := by
  interval_cases d <;> decide

theorem digitCh_ne_minus {d : Nat} (h : d < 10) : digitCh d ≠ '-' := by
  interval_cases d <;> decide

theorem natChars_ne_nil (n : Nat) : natChars n ≠ [] := by
  rw [natChars_eq]
  unfold natDigitsList
  by_cases h : n = 0
  · rw [if_pos h]; simp
  · rw [if_neg h]
    simp [Nat.digits_ne_nil_iff_ne_zero, h]

theorem natChars_all_digit (n : Nat) : ∀ c ∈ natChars n, c.isDigit = true := by
  rw [natChars_eq]
  intro c hc
  obtain ⟨d, hd, rfl⟩ := List.mem_map.mp hc
  exact digitCh_isDigit (natDigitsList_lt_ten n d hd)

theorem foldl_digits (ds : List Nat) (hds : ∀ d ∈ ds, d < 10) : ∀ acc : Nat,
    List.foldl (fun a c => a * 10 + (c.toNat - 48)) acc (ds.map digitCh) =
      acc * 10 ^ ds.length + Nat.ofDigits 10 ds.reverse := by
  induction ds with
  | nil => intro acc; simp [Nat.ofDigits]
  | cons d rest ih =>
    intro acc
    have hd : d < 10 := hds d (by simp)
    have hrest : ∀ x ∈ rest, x < 10 := fun x hx => hds x (by simp [hx])
    rw [List.map_cons, List.foldl_cons, ih hrest]
    rw [digitCh_toNat hd]
    have h48 : 48 + d - 48 = d := by omega
    rw [h48, List.reverse_cons, Nat.ofDigits_append]
    ring_nf
    simp [List.length_reverse, pow_succ]
    ring

theorem digitsVal_natChars (n : Nat) : digitsVal (natChars n) = n := by
  rw [natChars_eq]
  unfold digitsVal
  rw [foldl_digits _ (natDigitsList_lt_ten n) 0]
  unfold natDigitsList
  by_cases h : n = 0
  · rw [if_pos h]
    subst h
    simp [Nat.ofDigits]
  · rw [if_neg h]
    rw [List.reverse_reverse]
    simp [Nat.ofDigits_digits]

theorem digitsVal?_natChars (n : Nat) : digitsVal? (natChars n) = some n := by
  unfold digitsVal?
  rw [if_pos ⟨natChars_ne_nil n, List.all_eq_true.mpr (natChars_all_digit n)⟩,
    digitsVal_natChars]

theorem natChars_head_digit (n : Nat) :
    ∃ c cs, natChars n = c :: cs ∧ c.isDigit = true := by
  obtain ⟨c, cs, h⟩ := List.exists_cons_of_ne_nil (natChars_ne_nil n)
  exact ⟨c, cs, h, natChars_all_digit n c (by rw [h]; simp)⟩

theorem isDigit_ne_plus {c : Char} (h : c.isDigit = true) : c ≠ '+' := by
  intro hc; subst hc; simp at h

theorem isDigit_ne_minus {c : Char} (h : c.isDigit = true) : c ≠ '-' := by
  intro hc; subst hc; simp at h

/-- `int(str(i)) = i`: the cache writer's integer fields parse back exactly. -/
theorem pyInt?_intRepr (i : Int) : pyInt? (intRepr i) = some i := by
  unfold intRepr
  by_cases h : i < 0
  · rw [if_pos h]
    rw [pyInt?, if_neg (by decide : ¬ ('-' : Char) = '+'), if_pos rfl,
      digitsVal?_natChars]
    have habs : (i.natAbs : Int) = -i := Int.ofNat_natAbs_of_nonpos (le_of_lt h)
    simp [habs]
  · rw [if_neg h]
    obtain ⟨c, cs, hc, hdig⟩ := natChars_head_digit i.natAbs
    rw [hc, pyInt?, if_neg (isDigit_ne_plus hdig), if_neg (isDigit_ne_minus hdig),
      ← hc, digitsVal?_natChars]
    have habs : (i.natAbs : Int) = i := Int.natAbs_of_nonneg (not_lt.mp h)
    simp [Int.ofNat_eq_natCast, habs]

theorem intRepr_ne_nil (i : Int) : intRepr i ≠ [] := by
  unfold intRepr
  by_cases h : i < 0
  · rw [if_pos h]; simp
  · rw [if_neg h]; exact natChars_ne_nil _

theorem isDigit_not_ws {c : Char} (h : c.isDigit = true) :
    c.isWhitespace = false := by
  by_contra hw
  have hw' : c.isWhitespace = true := by
    cases hx : c.isWhitespace
    · exact absurd hx hw
    · rfl
  simp [Char.isWhitespace] at hw'
  rcases hw' with ((h1 | h1) | h1) | h1 <;> (subst h1; simp at h)

theorem intRepr_not_ws (i : Int) : ∀ c ∈ intRepr i, c.isWhitespace = false := by
  intro c hc
  unfold intRepr at hc
  by_cases h : i < 0
  · rw [if_pos h] at hc
    rcases List.mem_cons.mp hc with h1 | h1
    · subst h1; decide
    · exact isDigit_not_ws (natChars_all_digit i.natAbs c h1)
  · rw [if_neg h] at hc
    exact isDigit_not_ws (natChars_all_digit i.natAbs c hc)

/-! ## Splitting lemmas for well-formed cache lines -/

theorem pySplitAux_token (tok : List Char) (hws : ∀ c ∈ tok, c.isWhitespace = false) :
    ∀ rest acc, pySplitAux (tok ++ rest) acc = pySplitAux rest (tok.reverse ++ acc) := by
  induction tok with
  | nil => intro rest acc; simp
  | cons c t ih =>
    intro rest acc
    have hc : c.isWhitespace = false := hws c (by simp)
    have ht : ∀ x ∈ t, x.isWhitespace = false := fun x hx => hws x (by simp [hx])
    rw [List.cons_append, pySplitAux, hc]
    simp only [Bool.false_eq_true, if_false]
    rw [ih ht rest (c :: acc), List.reverse_cons, List.append_assoc,
      List.singleton_append]

theorem pySplitAux_space (rest : List Char) (acc : List Char) (hacc : acc ≠ []) :
    pySplitAux (' ' :: rest) acc = acc.reverse :: pySplitAux rest [] := by
  rw [pySplitAux]
  have : (' ' : Char).isWhitespace = true := by decide
  rw [this]
  simp [List.isEmpty_iff, hacc]

theorem pySplitAux_newline_end (acc : List Char) (hacc : acc ≠ []) :
    pySplitAux ['\n'] acc = [acc.reverse] := by
  rw [pySplitAux]
  have : ('\n' : Char).isWhitespace = true := by decide
  rw [this]
  simp [List.isEmpty_iff, hacc]
  rfl

/-- A token is "clean" when it is nonempty and whitespace-free. -/
def cleanTok (t : List Char) : Prop :=
  t ≠ [] ∧ ∀ c ∈ t, c.isWhitespace = false

instance (t : List Char) : Decidable (cleanTok t) := by
  unfold cleanTok
  infer_instance

/-- Python `split()` of a well-formed four-field cache line. -/
theorem pySplit_four (h n1 n2 n3 : List Char)
    (hh : cleanTok h) (h1 : cleanTok n1) (h2 : cleanTok n2) (h3 : cleanTok n3) :
    pySplit (h ++ (' ' :: (n1 ++ (' ' :: (n2 ++ (' ' :: (n3 ++ ['\n']))))))) =
      [h, n1, n2, n3] := by
  unfold pySplit
  rw [pySplitAux_token h hh.2]
  rw [pySplitAux_space _ _ (by simpa using hh.1)]
  rw [pySplitAux_token n1 h1.2]
  rw [pySplitAux_space _ _ (by simpa using h1.1)]
  rw [pySplitAux_token n2 h2.2]
  rw [pySplitAux_space _ _ (by simpa using h2.1)]
  rw [pySplitAux_token n3 h3.2]
  rw [pySplitAux_newline_end _ (by simpa using h3.1)]
  simp

/-! ## The GraphQL provider model and the two pagination fetchers -/

/-- Outcome of one `_graphql_request` call, classified as in the source:
`fatal` covers paths where `_graphql_request` raises (HTTP 401, other 4xx,
network errors, non-rate-limit GraphQL errors); `transient` covers paths
where it returns `None` (HTTP 403, HTTP 5xx, `RATE_LIMITED`); `page`
carries the `data` payload. -/
inductive Gql (α : Type) : Type
  | fatal : Gql α
  | transient : Gql α
  | page (p : α) : Gql α

/-- One page of `_fetch_commit_loc`'s `history(...)` query: the per-commit
`(additions, deletions)` nodes, plus `pageInfo.hasNextPage` and whether
`pageInfo.endCursor` is non-null/non-empty (both are tested before
recursing). -/
structure HistPage : Type where
  nodes : List (Nat × Nat)
  hasNextPage : Bool
  endCursorSome : Bool
  deriving DecidableEq

/-- One repository edge of `_fetch_repos`'s query: `nameWithOwner` (absent or
empty strings are skipped by the caller) and the nested
`defaultBranchRef.target.history.totalCount` (absent when the repository has
no default branch, in which case the caller counts 0). -/
structure RepoEdge : Type where
  nameWithOwner : Option (List Char)
  historyTotalCount : Option Nat
  deriving DecidableEq

/-- One page of `_fetch_repos`'s query. -/
structure RepoPage : Type where
  edges : List RepoEdge
  hasNextPage : Bool
  endCursorSome : Bool
  deriving DecidableEq

/-- `_fetch_repos`: accumulates `edges` across pages.  A `transient` outcome
returns the edges gathered so far; a `fatal` outcome propagates (no
`try` in `_fetch_repos`).  A well-formed provider stream answers every
request, so the stream is exhausted only after a page with
`hasNextPage = false`; an exhausted stream conservatively ends pagination. -/
def fetchRepos : List (Gql RepoPage) → List RepoEdge → Except Unit (List RepoEdge)
  | [], edges => .ok edges
  | .fatal :: _, _ => .error ()
  | .transient :: _, edges => .ok edges
  | .page p :: rest, edges =>
    let edges' := edges ++ p.edges
    if p.hasNextPage && p.endCursorSome then fetchRepos rest edges'
    else .ok edges'

/-- `_fetch_commit_loc` for recursion depth ≥ 2.  In the source, the recursive
call sits inside the `try` block of its caller, so an exception raised by a
deeper page request is caught by the caller's `except Exception`, which
returns the caller's accumulated partial counts — hence `fatal` here yields
the totals accumulated so far instead of propagating. -/
def fetchCommitLocRest : List (Gql HistPage) → Nat → Nat → Nat → Nat × Nat × Nat
  | [], adds, dels, commits => (adds, dels, commits)
  | .fatal :: _, adds, dels, commits => (adds, dels, commits)
  | .transient :: _, adds, dels, commits => (adds, dels, commits)
  | .page p :: rest, adds, dels, commits =>
    let adds' := adds + (p.nodes.map Prod.fst).sum
    let dels' := dels + (p.nodes.map Prod.snd).sum
    let commits' := commits + p.nodes.length
    if p.hasNextPage && p.endCursorSome then
      fetchCommitLocRest rest adds' dels' commits'
    else (adds', dels', commits')

/-- `_fetch_commit_loc(owner, repo, author_id)`: returns cumulative
`(adds, dels, commits)`.  Only the *first* page's request happens outside the
`try` block, so only a `fatal` outcome on the first request propagates as an
exception; all later failures yield partial totals. -/
def fetchCommitLoc : List (Gql HistPage) → Except Unit (Nat × Nat × Nat)
  | [] => .ok (0, 0, 0)
  | .fatal :: _ => .error ()
  | .transient :: _ => .ok (0, 0, 0)
  | .page p :: rest =>
    let adds' := (p.nodes.map Prod.fst).sum
    let dels' := (p.nodes.map Prod.snd).sum
    let commits' := p.nodes.length
    if p.hasNextPage && p.endCursorSome then
      .ok (fetchCommitLocRest rest adds' dels' commits')
    else .ok (adds', dels', commits')

/-! ## `calculate_loc_stats` -/

/-- The constant `FORCE_CACHE_REFRESH` from the source. -/
def FORCE_CACHE_REFRESH : Bool := false

/-- A cache entry `[user_commit_count, additions, deletions]` (Python ints). -/
abbrev CacheEntry : Type := Int × Int × Int

/-- Reading the cache file (source lines 219-236): for each line,
`parts = line.strip().split()`; exactly four fields parse as an entry (a
non-integer field marks the cache dirty and skips the line); a non-blank line
with another field count marks the cache dirty; blank lines are ignored.
Returns the parsed dict and the `cache_needs_update` flag contribution. -/
def readCacheStep (acc : List (List Char × CacheEntry) × Bool)
    (line : List Char) : List (List Char × CacheEntry) × Bool :=
  match pySplit line with
  | [h, c, a, d] =>
    match pyInt? c, pyInt? a, pyInt? d with
    | some ci, some ai, some di => (dictInsert h (ci, ai, di) acc.1, acc.2)
    | _, _, _ => (acc.1, true)
  | [] => acc
  | _ => (acc.1, true)

/-- Reading the whole cache file. -/
def readCache (lines : List (List Char)) :
    List (List Char × CacheEntry) × Bool :=
  lines.foldl readCacheStep ([], false)

/-- Building `current_repos` (source lines 199-216): skip edges whose
`nameWithOwner` is missing or empty, key by the identity hash of the name,
and read the user commit count off the nested history (0 when absent). -/
def buildCurrentRepos (hashFn : List Char → List Char) (edges : List RepoEdge) :
    List (List Char × (List Char × Nat)) :=
  edges.foldl
    (fun acc e =>
      match e.nameWithOwner with
      | some name =>
        if name = [] then acc
        else dictInsert (hashFn name) (name, e.historyTotalCount.getD 0) acc
      | none => acc)
    []

/-- State of the main reconciliation loop (source lines 191-296). -/
structure LoopState : Type where
  totalAdd : Int
  totalDel : Int
  finalCache : List (List Char × CacheEntry)
  cacheNeedsUpdate : Bool
  fetched : List (List Char)
  deriving DecidableEq

/-- The recalculation path (source lines 267-277): `owner, repo =
name_owner.split("/")` (a `ValueError` on any other field count propagates to
the top level), then `_fetch_commit_loc`; totals and the replacing cache
entry use the freshly fetched `(user_commits, adds, dels)`.  The history
stream is keyed by the full `nameWithOwner`, which determines `(owner,
repo)` uniquely when the split has exactly two fields. -/
def recalcRepo (hist : List Char → List (Gql HistPage)) (st : LoopState)
    (repoHash nameOwner : List Char) : Except Unit LoopState :=
  match splitOnChar '/' nameOwner with
  | [_owner, _repo] =>
    match fetchCommitLoc (hist nameOwner) with
    | .error e => .error e
    | .ok (adds, dels, userCommits) =>
      .ok { totalAdd := st.totalAdd + (adds : Int),
            totalDel := st.totalDel + (dels : Int),
            finalCache :=
              dictInsert repoHash ((userCommits : Int), (adds : Int), (dels : Int))
                st.finalCache,
            cacheNeedsUpdate := true,
            fetched := st.fetched ++ [nameOwner] }
  | _ => .error ()

/-- One iteration of the loop over `current_repos.items()` (lines 251-277). -/
def reconcileStep (cachedData : List (List Char × CacheEntry))
    (hist : List Char → List (Gql HistPage)) (st : LoopState)
    (r : List Char × (List Char × Nat)) : Except Unit LoopState :=
  match dictGet r.1 cachedData, FORCE_CACHE_REFRESH with
  | some (cachedCount, cachedAdds, cachedDels), false =>
    if cachedCount = (r.2.2 : Int) then
      .ok { totalAdd := st.totalAdd + cachedAdds,
            totalDel := st.totalDel + cachedDels,
            finalCache :=
              dictInsert r.1 (cachedCount, cachedAdds, cachedDels) st.finalCache,
            cacheNeedsUpdate := st.cacheNeedsUpdate,
            fetched := st.fetched }
    else
      recalcRepo hist { st with cacheNeedsUpdate := true } r.1 r.2.1
  | _, _ => recalcRepo hist st r.1 r.2.1

/-- `calculate_loc_stats(affiliations, author_id_dict)` (lines 188-296), as a
function of the identity-hash function, the provider streams and the cache
file contents (`none` models a missing or unreadable file).  Returns the
final loop state; `cacheNeedsUpdate` decides whether the cache file is
rewritten from `finalCache`. -/
def calculateLocStats (hashFn : List Char → List Char)
    (repoStream : List (Gql RepoPage))
    (hist : List Char → List (Gql HistPage))
    (cacheFile : Option (List (List Char))) : Except Unit LoopState :=
  match fetchRepos repoStream [] with
  | .error e => .error e
  | .ok repoEdges =>
    let currentRepos := buildCurrentRepos hashFn repoEdges
    let readResult : List (List Char × CacheEntry) × Bool :=
      match cacheFile with
      | some lines => readCache lines
      | none => ([], true)
    let cachedData := readResult.1
    let dirty0 : Bool :=
      readResult.2 ||
        !(sameKeySet (dictKeys currentRepos) (dictKeys cachedData))
    currentRepos.foldlM (reconcileStep cachedData hist)
      { totalAdd := 0, totalDel := 0, finalCache := [],
        cacheNeedsUpdate := dirty0, fetched := [] }

/-- One line of the cache file as written at the end of the run
(`f"{h} {data[0]} {data[1]} {data[2]}\n"`, line 292). -/
def cacheLine (h : List Char) (e : CacheEntry) : List Char :=
  h ++ (' ' :: (intRepr e.1 ++ (' ' :: (intRepr e.2.1 ++
    (' ' :: (intRepr e.2.2 ++ ['\n']))))))

/-- The cache file written from `final_cache_data` (lines 287-294). -/
def writeCache (fc : List (List Char × CacheEntry)) : List (List Char) :=
  fc.map fun p => cacheLine p.1 p.2

/-- The on-disk cache after a run: rewritten from `finalCache` exactly when
`cache_needs_update` is set, otherwise untouched (assuming the write
succeeds; an `IOError` on write is logged and swallowed in the source). -/
def cacheAfterRun (cacheFile : Option (List (List Char))) (st : LoopState) :
    Option (List (List Char)) :=
  if st.cacheNeedsUpdate then some (writeCache st.finalCache) else cacheFile

/-! ## Characterization of the reconciliation loop -/

/-- The cache-hit test of lines 255-262: the entry reused for a repository,
when its cached commit count equals the freshly observed one. -/
def hitEntry? (cachedData : List (List Char × CacheEntry))
    (r : List Char × (List Char × Nat)) : Option CacheEntry :=
  match dictGet r.1 cachedData, FORCE_CACHE_REFRESH with
  | some (c, a, d), false => if c = (r.2.2 : Int) then some (c, a, d) else none
  | _, _ => none

/-- The entry stored for a recomputed repository: `(user_commits, adds,
dels)` from `_fetch_commit_loc` (lines 273-277). -/
def recalcEntry (hist : List Char → List (Gql HistPage))
    (nameOwner : List Char) : Except Unit CacheEntry :=
  match splitOnChar '/' nameOwner with
  | [_o, _r] =>
    match fetchCommitLoc (hist nameOwner) with
    | .error e => .error e
    | .ok (adds, dels, commits) =>
      .ok ((commits : Int), (adds : Int), (dels : Int))
  | _ => .error ()

/-- The final cache entry produced for one listed repository. -/
def repoEntry (cachedData : List (List Char × CacheEntry))
    (hist : List Char → List (Gql HistPage))
    (r : List Char × (List Char × Nat)) : Except Unit CacheEntry :=
  match hitEntry? cachedData r with
  | some e => .ok e
  | none => recalcEntry hist r.2.1

/-- The association list of final cache entries for a repository list. -/
def specEntries (cachedData : List (List Char × CacheEntry))
    (hist : List Char → List (Gql HistPage)) :
    List (List Char × (List Char × Nat)) →
      Except Unit (List (List Char × CacheEntry))
  | [] => .ok []
  | r :: rest =>
    match repoEntry cachedData hist r with
    | .error e => .error e
    | .ok e =>
      match specEntries cachedData hist rest with
      | .error e2 => .error e2
      | .ok tail => .ok ((r.1, e) :: tail)

/-- Sum of the `additions` components of final cache entries. -/
def sumAdds (entries : List (List Char × CacheEntry)) : Int :=
  (entries.map fun e => e.2.2.1).sum

/-- Sum of the `deletions` components of final cache entries. -/
def sumDels (entries : List (List Char × CacheEntry)) : Int :=
  (entries.map fun e => e.2.2.2).sum

/-- The names of the repositories taken through the recalculation path. -/
def missNames (cachedData : List (List Char × CacheEntry))
    (repos : List (List Char × (List Char × Nat))) : List (List Char) :=
  (repos.filter fun r => (hitEntry? cachedData r).isNone).map fun r => r.2.1

/-- Whether any repository misses the cache. -/
def anyMiss (cachedData : List (List Char × CacheEntry))
    (repos : List (List Char × (List Char × Nat))) : Bool :=
  repos.any fun r => (hitEntry? cachedData r).isNone

/-- One loop iteration, re-expressed through `repoEntry`. -/
theorem reconcileStep_eq (cachedData : List (List Char × CacheEntry))
    (hist : List Char → List (Gql HistPage)) (st : LoopState)
    (r : List Char × (List Char × Nat)) :
    reconcileStep cachedData hist st r =
      match repoEntry cachedData hist r with
      | .error e => .error e
      | .ok e =>
        .ok { totalAdd := st.totalAdd + e.2.1,
              totalDel := st.totalDel + e.2.2,
              finalCache := dictInsert r.1 e st.finalCache,
              cacheNeedsUpdate :=
                st.cacheNeedsUpdate || (hitEntry? cachedData r).isNone,
              fetched :=
                st.fetched ++
                  if (hitEntry? cachedData r).isNone then [r.2.1] else [] } := by
  unfold reconcileStep repoEntry hitEntry? recalcRepo recalcEntry FORCE_CACHE_REFRESH
  cases hget : dictGet r.1 cachedData with
  | none =>
    simp only []
    cases hsplit : splitOnChar '/' r.2.1 with
    | nil => rfl
    | cons p1 ps =>
      cases ps with
      | nil => rfl
      | cons p2 ps2 =>
        cases ps2 with
        | nil =>
          cases hfetch : fetchCommitLoc (hist r.2.1) with
          | error e => rfl
          | ok v => obtain ⟨adds, dels, commits⟩ := v; simp
        | cons p3 ps3 => rfl
  | some e0 =>
    obtain ⟨c, a, d⟩ := e0
    by_cases hc : c = (r.2.2 : Int)
    · simp [hc]
    · simp only [if_neg hc]
      cases hsplit : splitOnChar '/' r.2.1 with
      | nil => rfl
      | cons p1 ps =>
        cases ps with
        | nil => rfl
        | cons p2 ps2 =>
          cases ps2 with
          | nil =>
            cases hfetch : fetchCommitLoc (hist r.2.1) with
            | error e => rfl
            | ok v => obtain ⟨adds, dels, commits⟩ := v; simp
          | cons p3 ps3 => rfl

/-- The whole loop: with pairwise-distinct repository keys that are fresh for
the accumulated state, `foldlM reconcileStep` is the spec fold. -/
theorem foldlM_reconcileStep (cachedData : List (List Char × CacheEntry))
    (hist : List Char → List (Gql HistPage)) :
    ∀ (repos : List (List Char × (List Char × Nat))) (st : LoopState),
    (repos.map Prod.fst).Nodup →
    (∀ r ∈ repos, r.1 ∉ dictKeys st.finalCache) →
    repos.foldlM (reconcileStep cachedData hist) st =
      match specEntries cachedData hist repos with
      | .error e => .error e
      | .ok entries =>
        .ok { totalAdd := st.totalAdd + sumAdds entries,
              totalDel := st.totalDel + sumDels entries,
              finalCache := st.finalCache ++ entries,
              cacheNeedsUpdate := st.cacheNeedsUpdate || anyMiss cachedData repos,
              fetched := st.fetched ++ missNames cachedData repos } := by
  intro repos
  induction repos with
  | nil =>
    intro st _ _
    simp only [specEntries, sumAdds, sumDels, anyMiss, missNames]
    simp only [List.map_nil, List.sum_nil, List.any_nil, List.filter_nil,
      add_zero, List.append_nil, Bool.or_false]
    rfl
  | cons r rest ih =>
    intro st hnodup hfresh
    have hfoldl : (r :: rest).foldlM (reconcileStep cachedData hist) st =
        reconcileStep cachedData hist st r >>= fun st' =>
          rest.foldlM (reconcileStep cachedData hist) st' := by
      rfl
    rw [hfoldl, reconcileStep_eq]
    have hnodup' : (rest.map Prod.fst).Nodup := (List.nodup_cons.mp hnodup).2
    have hnotin : r.1 ∉ rest.map Prod.fst := (List.nodup_cons.mp hnodup).1
    cases hre : repoEntry cachedData hist r with
    | error e =>
      simp only [specEntries, hre]
      rfl
    | ok e =>
      simp only [specEntries, hre]
      have hins : dictInsert r.1 e st.finalCache = st.finalCache ++ [(r.1, e)] :=
        dictInsert_eq_append r.1 e st.finalCache (hfresh r (by simp))
      have hfresh' : ∀ x ∈ rest,
          x.1 ∉ dictKeys (dictInsert r.1 e st.finalCache) := by
        intro x hx
        rw [hins]
        intro hmem
        rcases List.mem_map.mp hmem with ⟨p, hp, hfst⟩
        rcases List.mem_append.mp hp with hp1 | hp1
        · exact hfresh x (by simp [hx]) (hfst ▸ List.mem_map_of_mem Prod.fst hp1)
        · have : p = (r.1, e) := by simpa using hp1
          subst this
          exact hnotin (hfst ▸ List.mem_map_of_mem Prod.fst hx)
      have hbind : (Except.ok
          { totalAdd := st.totalAdd + e.2.1,
            totalDel := st.totalDel + e.2.2,
            finalCache := dictInsert r.1 e st.finalCache,
            cacheNeedsUpdate :=
              st.cacheNeedsUpdate || (hitEntry? cachedData r).isNone,
            fetched := st.fetched ++
              if (hitEntry? cachedData r).isNone then [r.2.1] else [] } >>=
          fun st' => rest.foldlM (reconcileStep cachedData hist) st') =
          rest.foldlM (reconcileStep cachedData hist)
          { totalAdd := st.totalAdd + e.2.1,
            totalDel := st.totalDel + e.2.2,
            finalCache := dictInsert r.1 e st.finalCache,
            cacheNeedsUpdate :=
              st.cacheNeedsUpdate || (hitEntry? cachedData r).isNone,
            fetched := st.fetched ++
              if (hitEntry? cachedData r).isNone then [r.2.1] else [] } := rfl
      rw [hbind, ih _ hnodup' hfresh']
      cases hrest : specEntries cachedData hist rest with
      | error e2 => rfl
      | ok tail =>
        simp only []
        congr 1
        have hmiss : anyMiss cachedData (r :: rest) =
            ((hitEntry? cachedData r).isNone || anyMiss cachedData rest) := by
          simp [anyMiss]
        have hmissnames : missNames cachedData (r :: rest) =
            (if (hitEntry? cachedData r).isNone then [r.2.1] else []) ++
              missNames cachedData rest := by
          unfold missNames
          cases hhit : (hitEntry? cachedData r).isNone <;>
            simp [List.filter_cons, hhit]
        have hsum1 : sumAdds ((r.1, e) :: tail) = e.2.1 + sumAdds tail := by
          simp [sumAdds]
        have hsum2 : sumDels ((r.1, e) :: tail) = e.2.2 + sumDels tail := by
          simp [sumDels]
        refine LoopState.mk.injEq .. ▸ ?_
        simp only [hsum1, hsum2, hins, hmiss, hmissnames]
        refine ⟨by ring, by ring, by simp, by simp [Bool.or_assoc], by simp⟩

/-- `current_repos` is a Python dict, so its key list has no duplicates. -/
theorem buildCurrentRepos_nodup (hashFn : List Char → List Char)
    (edges : List RepoEdge) :
    (dictKeys (buildCurrentRepos hashFn edges)).Nodup := by
  unfold buildCurrentRepos
  suffices h : ∀ (es : List RepoEdge) (acc : List (List Char × (List Char × Nat))),
      (dictKeys acc).Nodup →
      (dictKeys (es.foldl
        (fun acc e =>
          match e.nameWithOwner with
          | some name =>
            if name = [] then acc
            else dictInsert (hashFn name) (name, e.historyTotalCount.getD 0) acc
          | none => acc) acc)).Nodup by
    exact h edges [] (by simp [dictKeys])
  intro es
  induction es with
  | nil => intro acc hacc; exact hacc
  | cons e rest ih =>
    intro acc hacc
    rw [List.foldl_cons]
    cases hname : e.nameWithOwner with
    | none => exact ih acc hacc
    | some name =>
      by_cases hemp : name = []
      · simp only [hemp]
        exact ih acc (by simpa using hacc)
      · simp only [if_neg hemp]
        exact ih _ (dictKeys_nodup_dictInsert _ _ _ hacc)

/-- The `cached_data` dict and dirty flag read at startup (lines 219-236). -/
def readCacheFile (cacheFile : Option (List (List Char))) :
    List (List Char × CacheEntry) × Bool :=
  match cacheFile with
  | some lines => readCache lines
  | none => ([], true)

/-- The initial `cache_needs_update` flag after the key-set comparison of
line 239. -/
def initialDirty (cacheFile : Option (List (List Char)))
    (currentRepos : List (List Char × (List Char × Nat))) : Bool :=
  (readCacheFile cacheFile).2 ||
    !(sameKeySet (dictKeys currentRepos) (dictKeys (readCacheFile cacheFile).1))

/-- Top-level characterization of `calculate_loc_stats`. -/
theorem calculateLocStats_eq (hashFn : List Char → List Char)
    (repoStream : List (Gql RepoPage)) (hist : List Char → List (Gql HistPage))
    (cacheFile : Option (List (List Char))) (edges : List RepoEdge)
    (hedges : fetchRepos repoStream [] = .ok edges) :
    calculateLocStats hashFn repoStream hist cacheFile =
      match specEntries (readCacheFile cacheFile).1 hist
          (buildCurrentRepos hashFn edges) with
      | .error e => .error e
      | .ok entries =>
        .ok { totalAdd := sumAdds entries,
              totalDel := sumDels entries,
              finalCache := entries,
              cacheNeedsUpdate :=
                initialDirty cacheFile (buildCurrentRepos hashFn edges) ||
                  anyMiss (readCacheFile cacheFile).1
                    (buildCurrentRepos hashFn edges),
              fetched := missNames (readCacheFile cacheFile).1
                (buildCurrentRepos hashFn edges) } := by
  unfold calculateLocStats
  rw [hedges]
  simp only []
  rw [foldlM_reconcileStep _ _ _ _ (buildCurrentRepos_nodup hashFn edges)
    (by intro r _; simp [dictKeys])]
  unfold readCacheFile initialDirty
  cases hspec : specEntries (match cacheFile with
      | some lines => readCache lines
      | none => ([], true)).1 hist (buildCurrentRepos hashFn edges) with
  | error e => rfl
  | ok entries => simp [readCacheFile, Bool.or_assoc]

theorem dictInsert_mem {α : Type} {p : List Char × α} {k : List Char} {v : α}
    {d : List (List Char × α)} (h : p ∈ dictInsert k v d) :
    p ∈ d ∨ p = (k, v) := by
  induction d with
  | nil => simpa [dictInsert] using h
  | cons q rest ih =>
    obtain ⟨k', v'⟩ := q
    by_cases hk : k' = k
    · rw [dictInsert, if_pos hk] at h
      rcases List.mem_cons.mp h with h1 | h1
      · right; rw [h1, hk]
      · left; exact List.mem_cons_of_mem _ h1
    · rw [dictInsert, if_neg hk] at h
      rcases List.mem_cons.mp h with h1 | h1
      · left; exact h1 ▸ List.mem_cons_self _ _
      · rcases ih h1 with h2 | h2
        · left; exact List.mem_cons_of_mem _ h2
        · right; exact h2

/-- Every `current_repos` entry's key is the identity hash of its name. -/
theorem buildCurrentRepos_hash (hashFn : List Char → List Char)
    (edges : List RepoEdge) :
    ∀ p ∈ buildCurrentRepos hashFn edges, p.1 = hashFn p.2.1 := by
  unfold buildCurrentRepos
  suffices hgen : ∀ (es : List RepoEdge)
      (acc : List (List Char × (List Char × Nat))),
      (∀ p ∈ acc, p.1 = hashFn p.2.1) →
      ∀ p ∈ es.foldl
        (fun acc e =>
          match e.nameWithOwner with
          | some name =>
            if name = [] then acc
            else dictInsert (hashFn name) (name, e.historyTotalCount.getD 0) acc
          | none => acc) acc, p.1 = hashFn p.2.1 by
    exact hgen edges [] (by simp)
  intro es
  induction es with
  | nil => intro acc hacc; exact hacc
  | cons e rest ih =>
    intro acc hacc
    rw [List.foldl_cons]
    cases hname : e.nameWithOwner with
    | none => exact ih acc hacc
    | some name =>
      by_cases hemp : name = []
      · simp only [hemp]
        exact ih acc (by simpa using hacc)
      · simp only [if_neg hemp]
        refine ih _ ?_
        intro p hp
        rcases dictInsert_mem hp with h1 | h1
        · exact hacc p h1
        · rw [h1]

/-- `specEntries` preserves the key list. -/
theorem specEntries_keys (cachedData : List (List Char × CacheEntry))
    (hist : List Char → List (Gql HistPage)) :
    ∀ (repos : List (List Char × (List Char × Nat)))
      (entries : List (List Char × CacheEntry)),
    specEntries cachedData hist repos = .ok entries →
    dictKeys entries = repos.map Prod.fst := by
  intro repos
  induction repos with
  | nil =>
    intro entries h
    cases h
    rfl
  | cons r rest ih =>
    intro entries h
    rw [specEntries] at h
    cases hre : repoEntry cachedData hist r with
    | error e => rw [hre] at h; cases h
    | ok e =>
      rw [hre] at h
      cases hrest : specEntries cachedData hist rest with
      | error e2 => rw [hrest] at h; cases h
      | ok tail =>
        rw [hrest] at h
        cases h
        have : dictKeys ((r.1, e) :: tail) = r.1 :: dictKeys tail := rfl
        rw [this, ih tail hrest, List.map_cons]

/-- With `Nodup` keys, a listed repository's final entry is found by lookup
and comes from `repoEntry`. -/
theorem specEntries_lookup (cachedData : List (List Char × CacheEntry))
    (hist : List Char → List (Gql HistPage)) :
    ∀ (repos : List (List Char × (List Char × Nat)))
      (entries : List (List Char × CacheEntry))
      (r : List Char × (List Char × Nat)),
    (repos.map Prod.fst).Nodup → r ∈ repos →
    specEntries cachedData hist repos = .ok entries →
    ∃ e, repoEntry cachedData hist r = .ok e ∧ dictGet r.1 entries = some e := by
  intro repos
  induction repos with
  | nil => intro entries r _ hmem; simp at hmem
  | cons r0 rest ih =>
    intro entries r hnodup hmem hspec
    rw [specEntries] at hspec
    cases hre : repoEntry cachedData hist r0 with
    | error e => rw [hre] at hspec; cases hspec
    | ok e0 =>
      rw [hre] at hspec
      cases hrest : specEntries cachedData hist rest with
      | error e2 => rw [hrest] at hspec; cases hspec
      | ok tail =>
        rw [hrest] at hspec
        cases hspec
        rcases List.mem_cons.mp hmem with h1 | h1
        · subst h1
          exact ⟨e0, hre, by rw [dictGet, if_pos rfl]⟩
        · have hne : ¬ r0.1 = r.1 := by
            intro hx
            have h1' : r.1 ∈ rest.map Prod.fst := List.mem_map_of_mem Prod.fst h1
            rw [← hx] at h1'
            exact (List.nodup_cons.mp (by simpa using hnodup)).1 h1'
          obtain ⟨e, he1, he2⟩ :=
            ih tail r (List.nodup_cons.mp (by simpa using hnodup)).2 h1 hrest
          exact ⟨e, he1, by rw [dictGet, if_neg hne]; exact he2⟩

/-- What a successful `calculate_loc_stats` run looks like. -/
theorem calculateLocStats_ok (hashFn : List Char → List Char)
    (repoStream : List (Gql RepoPage)) (hist : List Char → List (Gql HistPage))
    (cacheFile : Option (List (List Char))) (st : LoopState)
    (edges : List RepoEdge)
    (hedges : fetchRepos repoStream [] = .ok edges)
    (hrun : calculateLocStats hashFn repoStream hist cacheFile = .ok st) :
    specEntries (readCacheFile cacheFile).1 hist (buildCurrentRepos hashFn edges)
        = .ok st.finalCache ∧
      st.totalAdd = sumAdds st.finalCache ∧
      st.totalDel = sumDels st.finalCache ∧
      st.cacheNeedsUpdate =
        (initialDirty cacheFile (buildCurrentRepos hashFn edges) ||
          anyMiss (readCacheFile cacheFile).1 (buildCurrentRepos hashFn edges)) ∧
      st.fetched =
        missNames (readCacheFile cacheFile).1 (buildCurrentRepos hashFn edges)
    := by
  rw [calculateLocStats_eq hashFn repoStream hist cacheFile edges hedges] at hrun
  cases hspec : specEntries (readCacheFile cacheFile).1 hist
      (buildCurrentRepos hashFn edges) with
  | error e => rw [hspec] at hrun; cases hrun
  | ok entries =>
    rw [hspec] at hrun
    injection hrun with hst
    rw [← hst]
    refine ⟨?_, rfl, rfl, rfl, rfl⟩
    rfl

/-- In an association list with `Nodup` keys, equal keys mean equal pairs. -/
theorem nodup_keys_eq {α : Type} {l : List (List Char × α)}
    (h : (l.map Prod.fst).Nodup) {a b : List Char × α}
    (ha : a ∈ l) (hb : b ∈ l) (hab : a.1 = b.1) : a = b := by
  induction l with
  | nil => exact absurd ha (List.not_mem_nil a)
  | cons p rest ih =>
    have hmap : (p :: rest).map Prod.fst = p.1 :: rest.map Prod.fst := rfl
    have hn := List.nodup_cons.mp (hmap ▸ h)
    rcases List.mem_cons.mp ha with ha1 | ha1 <;>
      rcases List.mem_cons.mp hb with hb1 | hb1
    · rw [ha1, hb1]
    · exfalso
      apply hn.1
      rw [ha1] at hab
      exact hab ▸ List.mem_map_of_mem Prod.fst hb1
    · exfalso
      apply hn.1
      rw [hb1] at hab
      exact hab ▸ List.mem_map_of_mem Prod.fst ha1
    · exact ih hn.2 ha1 hb1

/-- Equality of `Except` results is decidable (used only by witnesses). -/
instance {eps alp : Type} [DecidableEq eps] [DecidableEq alp] :
    DecidableEq (Except eps alp)
  | .error a, .error b =>
    if h : a = b then isTrue (h ▸ rfl)
    else isFalse fun hx => h (Except.error.inj hx)
  | .error _, .ok _ => isFalse fun hx => Except.noConfusion hx
  | .ok _, .error _ => isFalse fun hx => Except.noConfusion hx
  | .ok a, .ok b =>
    if h : a = b then isTrue (h ▸ rfl)
    else isFalse fun hx => h (Except.ok.inj hx)

/-! ## Witness fixtures: a small concrete scenario -/

/-- A concrete injective stand-in for the identity hash in witnesses. -/
def exHash (n : List Char) : List Char :=
  'h' :: n.filter fun c => decide (c ≠ '/')

/-- A concrete commit-history provider: one final page with two commits. -/
def exHist : List Char → List (Gql HistPage) :=
  fun _ => [Gql.page ⟨[(1, 2), (3, 4)], false, false⟩]

/-- A concrete repository listing: `o/a` with 5 commits, `o/b` with 3. -/
def exRepoStream : List (Gql RepoPage) :=
  [Gql.page ⟨[⟨some "o/a".data, some 5⟩, ⟨some "o/b".data, some 3⟩],
    false, false⟩]

/-- The edges delivered by `exRepoStream`. -/
def exEdges : List RepoEdge :=
  [⟨some "o/a".data, some 5⟩, ⟨some "o/b".data, some 3⟩]

/-- A cache file holding a valid, current entry for `o/a` plus a malformed
(three-field) line. -/
def exCacheLines : List (List Char) :=
  ["hoa 5 100 10".data, "bad extra line".data]

/-- The loop state produced by the concrete scenario. -/
def exRunState : LoopState :=
  { totalAdd := 104, totalDel := 16,
    finalCache := [("hoa".data, (5, 100, 10)), ("hob".data, (2, 4, 6))],
    cacheNeedsUpdate := true,
    fetched := ["o/b".data] }

/-! ## C2 -/

/-- C2: for every repository in the current listing whose cache entry exists
with `commit_count` equal to the freshly observed one, the run does not
invoke the commit-history fetcher for it, carries the cached
`(commit_count, additions, deletions)` entry unchanged into the final cache,
and the totals are the sums of the final entries' additions/deletions
components (so the cached values flow into the totals through the carried
entry). -/
theorem c2_cache_hit (hashFn : List Char → List Char)
    (repoStream : List (Gql RepoPage)) (hist : List Char → List (Gql HistPage))
    (cacheFile : Option (List (List Char))) (st : LoopState)
    (edges : List RepoEdge) (h nameOwner : List Char) (count : Nat)
    (c a d : Int)
    (hedges : fetchRepos repoStream [] = .ok edges)
    (hrun : calculateLocStats hashFn repoStream hist cacheFile = .ok st)
    (hmem : (h, (nameOwner, count)) ∈ buildCurrentRepos hashFn edges)
    (hcached : dictGet h (readCacheFile cacheFile).1 = some (c, a, d))
    (hcount : c = (count : Int)) :
    nameOwner ∉ st.fetched ∧
      dictGet h st.finalCache = some (c, a, d) ∧
      st.totalAdd = sumAdds st.finalCache ∧
      st.totalDel = sumDels st.finalCache := by
  obtain ⟨hspec, hta, htd, hupd, hfetched⟩ :=
    calculateLocStats_ok hashFn repoStream hist cacheFile st edges hedges hrun
  set cd := (readCacheFile cacheFile).1 with hcd
  set repos := buildCurrentRepos hashFn edges with hrepos
  have hnodup : (repos.map Prod.fst).Nodup := buildCurrentRepos_nodup hashFn edges
  have hhit : hitEntry? cd (h, (nameOwner, count)) = some (c, a, d) := by
    unfold hitEntry? FORCE_CACHE_REFRESH
    rw [hcached]
    simp [hcount]
  refine ⟨?_, ?_, hta, htd⟩
  · rw [hfetched]
    intro hin
    unfold missNames at hin
    rcases List.mem_map.mp hin with ⟨r', hr', hname⟩
    have hr'mem : r' ∈ repos := List.mem_of_mem_filter hr'
    have hr'miss : (hitEntry? cd r').isNone = true := by
      have := List.of_mem_filter hr'
      simpa using this
    have hr'hash : r'.1 = hashFn r'.2.1 :=
      buildCurrentRepos_hash hashFn edges r' hr'mem
    have hhash : h = hashFn nameOwner :=
      buildCurrentRepos_hash hashFn edges (h, (nameOwner, count)) hmem
    have hkeys : r'.1 = (h, (nameOwner, count)).1 := by
      rw [hr'hash, hname, ← hhash]
    have : r' = (h, (nameOwner, count)) := nodup_keys_eq hnodup hr'mem hmem hkeys
    rw [this, hhit] at hr'miss
    simp at hr'miss
  · obtain ⟨e, he1, he2⟩ :=
      specEntries_lookup cd hist repos st.finalCache (h, (nameOwner, count))
        hnodup hmem hspec
    rw [repoEntry, hhit] at he1
    cases he1
    exact he2

/-- C2 witness: the concrete scenario (valid cached entry for `o/a` with
matching count 5). -/
theorem c2_cache_hit_witness :
    "o/a".data ∉ exRunState.fetched ∧
      dictGet "hoa".data exRunState.finalCache = some (5, 100, 10) ∧
      exRunState.totalAdd = sumAdds exRunState.finalCache ∧
      exRunState.totalDel = sumDels exRunState.finalCache :=
  c2_cache_hit exHash exRepoStream exHist (some exCacheLines) exRunState
    exEdges "hoa".data "o/a".data 5 5 100 10
    (by decide) (by decide) (by decide) (by decide) (by decide)

/-! ## C3 -/

/-- Helper: every listed repository with no valid matching cache entry goes
through the recalculation path and its final entry is the fetched triple. -/
theorem recalc_path_spec (hashFn : List Char → List Char)
    (repoStream : List (Gql RepoPage)) (hist : List Char → List (Gql HistPage))
    (cacheFile : Option (List (List Char))) (st : LoopState)
    (edges : List RepoEdge) (h nameOwner : List Char) (count : Nat)
    (hedges : fetchRepos repoStream [] = .ok edges)
    (hrun : calculateLocStats hashFn repoStream hist cacheFile = .ok st)
    (hmem : (h, (nameOwner, count)) ∈ buildCurrentRepos hashFn edges)
    (hnohit : ∀ c a d : Int,
      dictGet h (readCacheFile cacheFile).1 = some (c, a, d) →
        c ≠ (count : Int)) :
    ∃ adds dels commits : Nat,
      fetchCommitLoc (hist nameOwner) = .ok (adds, dels, commits) ∧
      dictGet h st.finalCache =
        some ((commits : Int), (adds : Int), (dels : Int)) ∧
      nameOwner ∈ st.fetched := by
  obtain ⟨hspec, _, _, _, hfetched⟩ :=
    calculateLocStats_ok hashFn repoStream hist cacheFile st edges hedges hrun
  set cd := (readCacheFile cacheFile).1 with hcd
  set repos := buildCurrentRepos hashFn edges with hrepos
  have hnodup : (repos.map Prod.fst).Nodup := buildCurrentRepos_nodup hashFn edges
  have hmiss : hitEntry? cd (h, (nameOwner, count)) = none := by
    unfold hitEntry? FORCE_CACHE_REFRESH
    cases hget : dictGet h cd with
    | none => rfl
    | some e0 =>
      obtain ⟨c, a, d⟩ := e0
      have := hnohit c a d hget
      simp [this]
  obtain ⟨e, he1, he2⟩ :=
    specEntries_lookup cd hist repos st.finalCache (h, (nameOwner, count))
      hnodup hmem hspec
  rw [repoEntry, hmiss] at he1
  rw [recalcEntry] at he1
  cases hsplit : splitOnChar '/' nameOwner with
  | nil => rw [hsplit] at he1; cases he1
  | cons p1 ps =>
    cases ps with
    | nil => rw [hsplit] at he1; cases he1
    | cons p2 ps2 =>
      cases ps2 with
      | cons p3 ps3 => rw [hsplit] at he1; cases he1
      | nil =>
        rw [hsplit] at he1
        cases hfetch : fetchCommitLoc (hist nameOwner) with
        | error e0 => rw [hfetch] at he1; cases he1
        | ok v =>
          obtain ⟨adds, dels, commits⟩ := v
          rw [hfetch] at he1
          cases he1
          refine ⟨adds, dels, commits, rfl, he2, ?_⟩
          rw [hfetched]
          unfold missNames
          refine List.mem_map.mpr ⟨(h, (nameOwner, count)), ?_, rfl⟩
          refine List.mem_filter.mpr ⟨hmem, ?_⟩
          rw [hmiss]
          rfl

/-- C3: every listed repository with no cache entry, or whose cached
`commit_count` differs from the freshly observed one, goes through the
commit-history fetcher, and the replacing cache entry stored under its
identity hash holds the recomputed `(commit_count, additions, deletions)`
from that fetch. -/
theorem c3_changed_count_recomputed (hashFn : List Char → List Char)
    (repoStream : List (Gql RepoPage)) (hist : List Char → List (Gql HistPage))
    (cacheFile : Option (List (List Char))) (st : LoopState)
    (edges : List RepoEdge) (h nameOwner : List Char) (count : Nat)
    (hedges : fetchRepos repoStream [] = .ok edges)
    (hrun : calculateLocStats hashFn repoStream hist cacheFile = .ok st)
    (hmem : (h, (nameOwner, count)) ∈ buildCurrentRepos hashFn edges)
    (hnohit : ∀ c a d : Int,
      dictGet h (readCacheFile cacheFile).1 = some (c, a, d) →
        c ≠ (count : Int)) :
    ∃ adds dels commits : Nat,
      fetchCommitLoc (hist nameOwner) = .ok (adds, dels, commits) ∧
      dictGet h st.finalCache =
        some ((commits : Int), (adds : Int), (dels : Int)) ∧
      nameOwner ∈ st.fetched :=
  recalc_path_spec hashFn repoStream hist cacheFile st edges h nameOwner count
    hedges hrun hmem hnohit

/-- C3 witness: the concrete scenario's repository `o/b` has no cache entry
and is recomputed from its commit history. -/
theorem c3_changed_count_recomputed_witness :
    ∃ adds dels commits : Nat,
      fetchCommitLoc (exHist "o/b".data) = .ok (adds, dels, commits) ∧
      dictGet "hob".data exRunState.finalCache =
        some ((commits : Int), (adds : Int), (dels : Int)) ∧
      "o/b".data ∈ exRunState.fetched :=
  c3_changed_count_recomputed exHash exRepoStream exHist (some exCacheLines)
    exRunState exEdges "hob".data "o/b".data 3
    (by decide) (by decide) (by decide)
    (by
      intro c a d hx
      have hnone :
          dictGet "hob".data (readCacheFile (some exCacheLines)).1 = none := by
        decide
      rw [hnone] at hx
      cases hx)

/-! ## C9 -/

/-- C9: whenever the cache file is rewritten at the end of a run, the written
file is exactly the rendering of the final cache, whose identity-hash key
list equals the key list of the current repository listing, with no
duplicates: entries for unlisted repositories are dropped and every listed
repository has exactly one entry. -/
theorem c9_cache_keys_match_listing (hashFn : List Char → List Char)
    (repoStream : List (Gql RepoPage)) (hist : List Char → List (Gql HistPage))
    (cacheFile : Option (List (List Char))) (st : LoopState)
    (edges : List RepoEdge)
    (hedges : fetchRepos repoStream [] = .ok edges)
    (hrun : calculateLocStats hashFn repoStream hist cacheFile = .ok st)
    (hupd : st.cacheNeedsUpdate = true) :
    cacheAfterRun cacheFile st = some (writeCache st.finalCache) ∧
      dictKeys st.finalCache = dictKeys (buildCurrentRepos hashFn edges) ∧
      (dictKeys st.finalCache).Nodup := by
  obtain ⟨hspec, _, _, _, _⟩ :=
    calculateLocStats_ok hashFn repoStream hist cacheFile st edges hedges hrun
  have hkeys : dictKeys st.finalCache =
      (buildCurrentRepos hashFn edges).map Prod.fst :=
    specEntries_keys _ hist _ st.finalCache hspec
  refine ⟨?_, hkeys, ?_⟩
  · unfold cacheAfterRun
    rw [hupd]
    rfl
  · rw [hkeys]
    exact buildCurrentRepos_nodup hashFn edges

/-- C9 witness: the concrete scenario rewrites the cache with exactly the
two listed repositories' hashes. -/
theorem c9_cache_keys_match_listing_witness :
    cacheAfterRun (some exCacheLines) exRunState =
        some (writeCache exRunState.finalCache) ∧
      dictKeys exRunState.finalCache =
        dictKeys (buildCurrentRepos exHash exEdges) ∧
      (dictKeys exRunState.finalCache).Nodup :=
  c9_cache_keys_match_listing exHash exRepoStream exHist (some exCacheLines)
    exRunState exEdges (by decide) (by decide) (by decide)

/-! ## C1 -/

/-- The entry a single cache line contributes, if it is well-formed. -/
def lineParse (line : List Char) : Option (List Char × CacheEntry) :=
  match pySplit line with
  | [h, c, a, d] =>
    match pyInt? c, pyInt? a, pyInt? d with
    | some ci, some ai, some di => some (h, (ci, ai, di))
    | _, _, _ => none
  | _ => none

/-- Whether a single cache line marks the cache dirty (non-blank and not a
well-formed four-integer-field record). -/
def lineDirty (line : List Char) : Bool :=
  match pySplit line with
  | [h, c, a, d] =>
    match pyInt? c, pyInt? a, pyInt? d with
    | some _, some _, some _ => false
    | _, _, _ => true
  | [] => false
  | _ => true

/-- One line's contribution to the parsed dict and the dirty flag. -/
theorem readCacheStep_eq (acc : List (List Char × CacheEntry) × Bool)
    (line : List Char) :
    readCacheStep acc line =
      ((match lineParse line with
        | some p => dictInsert p.1 p.2 acc.1
        | none => acc.1),
       acc.2 || lineDirty line) := by
  unfold readCacheStep lineParse lineDirty
  cases heq : pySplit line with
  | nil => simp
  | cons p1 ps =>
    cases ps with
    | nil => simp
    | cons p2 ps2 =>
      cases ps2 with
      | nil => simp
      | cons p3 ps3 =>
        cases ps3 with
        | nil => simp
        | cons p4 ps4 =>
          cases ps4 with
          | cons p5 ps5 => simp
          | nil =>
            cases h1 : pyInt? p2 <;> cases h2 : pyInt? p3 <;>
              cases h3 : pyInt? p4 <;> simp [h1, h2, h3]

/-- The entry-collecting half of one line's contribution. -/
def cacheInsertStep (acc : List (List Char × CacheEntry)) (line : List Char) :
    List (List Char × CacheEntry) :=
  match lineParse line with
  | some p => dictInsert p.1 p.2 acc
  | none => acc

/-- `readCache` decomposes per line: the dict collects well-formed entries in
order, and the dirty flag is an `any` over lines. -/
theorem readCache_eq (lines : List (List Char)) :
    readCache lines = (lines.foldl cacheInsertStep [], lines.any lineDirty) := by
  unfold readCache
  suffices hgen : ∀ (ls : List (List Char))
      (acc1 : List (List Char × CacheEntry)) (flag : Bool),
      ls.foldl readCacheStep (acc1, flag) =
        (ls.foldl cacheInsertStep acc1, flag || ls.any lineDirty) by
    rw [hgen lines [] false]
    simp
  intro ls
  induction ls with
  | nil => intro acc1 flag; simp
  | cons line rest ih =>
    intro acc1 flag
    rw [List.foldl_cons, List.foldl_cons, List.any_cons, readCacheStep_eq]
    rw [ih _ (flag || lineDirty line)]
    rw [Bool.or_assoc]
    rfl

/-- A dirty (malformed) line contributes no cache entry. -/
theorem lineParse_none_of_dirty {line : List Char}
    (hd : lineDirty line = true) : lineParse line = none := by
  unfold lineDirty at hd
  unfold lineParse
  cases heq : pySplit line with
  | nil => rfl
  | cons p1 ps =>
    rw [heq] at hd
    cases ps with
    | nil => rfl
    | cons p2 ps2 =>
      cases ps2 with
      | nil => rfl
      | cons p3 ps3 =>
        cases ps3 with
        | nil => rfl
        | cons p4 ps4 =>
          cases ps4 with
          | cons p5 ps5 => rfl
          | nil =>
            cases h1 : pyInt? p2 <;> cases h2 : pyInt? p3 <;>
              cases h3 : pyInt? p4 <;> simp [h1, h2, h3] at hd ⊢

/-- C1 (amended): a malformed cache line does *not* make the reconciler treat
the whole cache as empty.  It marks the cache as needing a rewrite
(`cache_needs_update`), but the entries parsed from the well-formed lines are
kept and reused exactly as if the malformed line were absent: the run equals
the run on the same file without that line, except that the final state
always has `cacheNeedsUpdate = true`; in particular the run completes without
crashing whenever the run without the malformed line does. -/
theorem c1_malformed_line_marks_dirty_only (pre post : List (List Char))
    (bad : List Char) (hbad : lineDirty bad = true)
    (hashFn : List Char → List Char) (repoStream : List (Gql RepoPage))
    (hist : List Char → List (Gql HistPage)) :
    (readCache (pre ++ bad :: post)).1 = (readCache (pre ++ post)).1 ∧
      (readCache (pre ++ bad :: post)).2 = true ∧
      calculateLocStats hashFn repoStream hist (some (pre ++ bad :: post)) =
        (calculateLocStats hashFn repoStream hist (some (pre ++ post))).map
          fun st => { st with cacheNeedsUpdate := true } := by
  have hdict : (readCache (pre ++ bad :: post)).1 = (readCache (pre ++ post)).1 := by
    rw [readCache_eq, readCache_eq]
    simp only [List.foldl_append, List.foldl_cons]
    rw [show cacheInsertStep (pre.foldl cacheInsertStep []) bad =
        pre.foldl cacheInsertStep [] from by
      unfold cacheInsertStep
      rw [lineParse_none_of_dirty hbad]]
  have hdirty : (readCache (pre ++ bad :: post)).2 = true := by
    rw [readCache_eq]
    simp [hbad]
  refine ⟨hdict, hdirty, ?_⟩
  cases hr : fetchRepos repoStream [] with
  | error e =>
    have hL : calculateLocStats hashFn repoStream hist
        (some (pre ++ bad :: post)) = .error e := by
      unfold calculateLocStats
      rw [hr]
    have hR : calculateLocStats hashFn repoStream hist
        (some (pre ++ post)) = .error e := by
      unfold calculateLocStats
      rw [hr]
    rw [hL, hR]
    rfl
  | ok edges =>
    rw [calculateLocStats_eq hashFn repoStream hist (some (pre ++ bad :: post))
      edges hr,
      calculateLocStats_eq hashFn repoStream hist (some (pre ++ post)) edges hr]
    have hcd : (readCacheFile (some (pre ++ bad :: post))).1 =
        (readCacheFile (some (pre ++ post))).1 := by
      unfold readCacheFile
      exact hdict
    rw [hcd]
    have hInit : initialDirty (some (pre ++ bad :: post))
        (buildCurrentRepos hashFn edges) = true := by
      unfold initialDirty readCacheFile
      rw [hdirty]
      rfl
    cases hspec : specEntries (readCacheFile (some (pre ++ post))).1 hist
        (buildCurrentRepos hashFn edges) with
    | error e => rfl
    | ok entries =>
      simp [hInit, Except.map]

/-- C1 (counterexample): the concrete scenario has a malformed three-field
cache line, yet the run succeeds with the cached entry for `o/a` reused: the
fetcher list contains only `o/b`, so not every listed repository is
recomputed and the cache is not treated as empty. -/
theorem c1_counterexample :
    (pySplit "bad extra line".data).length = 3 ∧
      "bad extra line".data ∈ exCacheLines ∧
      ("hoa".data, ("o/a".data, 5)) ∈ buildCurrentRepos exHash exEdges ∧
      calculateLocStats exHash exRepoStream exHist (some exCacheLines) =
        .ok exRunState ∧
      "o/a".data ∉ exRunState.fetched ∧
      dictGet "hoa".data exRunState.finalCache = some (5, 100, 10) := by
  decide

/-- C1 witness for the amended statement, at the concrete scenario. -/
theorem c1_malformed_line_marks_dirty_only_witness :
    (readCache (["hoa 5 100 10".data] ++ "bad extra line".data :: [])).1 =
        (readCache (["hoa 5 100 10".data] ++ [])).1 ∧
      (readCache (["hoa 5 100 10".data] ++ "bad extra line".data :: [])).2 =
        true ∧
      calculateLocStats exHash exRepoStream exHist
          (some (["hoa 5 100 10".data] ++ "bad extra line".data :: [])) =
        (calculateLocStats exHash exRepoStream exHist
            (some (["hoa 5 100 10".data] ++ []))).map
          (fun st => { st with cacheNeedsUpdate := true }) :=
  c1_malformed_line_marks_dirty_only ["hoa 5 100 10".data] []
    "bad extra line".data (by decide) exHash exRepoStream exHist

/-! ## C5 -/

/-- A written cache line parses back to exactly its entry and is clean. -/
theorem lineParse_cacheLine (h : List Char) (e : CacheEntry)
    (hh : cleanTok h) :
    lineParse (cacheLine h e) = some (h, e) ∧
      lineDirty (cacheLine h e) = false := by
  unfold lineParse lineDirty cacheLine
  rw [pySplit_four h (intRepr e.1) (intRepr e.2.1) (intRepr e.2.2) hh
    ⟨intRepr_ne_nil _, intRepr_not_ws _⟩
    ⟨intRepr_ne_nil _, intRepr_not_ws _⟩
    ⟨intRepr_ne_nil _, intRepr_not_ws _⟩]
  simp [pyInt?_intRepr]

/-- Collecting the written lines rebuilds the association list. -/
theorem foldl_cacheInsertStep_writeCache (fc : List (List Char × CacheEntry)) :
    ∀ acc : List (List Char × CacheEntry),
    (∀ p ∈ fc, cleanTok p.1) →
    ((dictKeys acc) ++ (dictKeys fc)).Nodup →
    (writeCache fc).foldl cacheInsertStep acc = acc ++ fc := by
  induction fc with
  | nil => intro acc _ _; simp [writeCache]
  | cons p rest ih =>
    intro acc hclean hnodup
    obtain ⟨h, e⟩ := p
    have hline : (writeCache ((h, e) :: rest)) =
        cacheLine h e :: writeCache rest := rfl
    rw [hline, List.foldl_cons]
    have hstep : cacheInsertStep acc (cacheLine h e) = acc ++ [(h, e)] := by
      unfold cacheInsertStep
      rw [(lineParse_cacheLine h e (hclean (h, e) (by simp))).1]
      refine dictInsert_eq_append h e acc ?_
      intro hmem
      have : ¬ h ∈ dictKeys acc := by
        have hd := List.disjoint_of_nodup_append hnodup
        intro hx
        exact hd hx (by
          have : dictKeys ((h, e) :: rest) = h :: dictKeys rest := rfl
          rw [this]
          simp)
      exact this hmem
    rw [hstep, ih (acc ++ [(h, e)])
      (fun q hq => hclean q (List.mem_cons_of_mem _ hq)) ?hnd]
    · rw [List.append_assoc]
      rfl
    case hnd =>
      have h1 : dictKeys (acc ++ [(h, e)]) = dictKeys acc ++ [h] := by
        unfold dictKeys
        rw [List.map_append]
        rfl
      rw [h1, List.append_assoc]
      have h2 : dictKeys ((h, e) :: rest) = h :: dictKeys rest := rfl
      rw [h2] at hnodup
      have h3 : [h] ++ dictKeys rest = h :: dictKeys rest := rfl
      rw [h3]
      exact hnodup

/-- Helper: writing any mapping with clean, duplicate-free keys and reading
it back reproduces the mapping, with no dirty flag. -/
theorem readCache_writeCache (fc : List (List Char × CacheEntry))
    (hclean : ∀ p ∈ fc, cleanTok p.1)
    (hnodup : (dictKeys fc).Nodup) :
    readCache (writeCache fc) = (fc, false) := by
  rw [readCache_eq]
  have hdict : (writeCache fc).foldl cacheInsertStep [] = fc := by
    have := foldl_cacheInsertStep_writeCache fc [] hclean (by simpa using hnodup)
    simpa using this
  have hdirty : (writeCache fc).any lineDirty = false := by
    rw [List.any_eq_false]
    intro line hline
    unfold writeCache at hline
    rcases List.mem_map.mp hline with ⟨p, hp, rfl⟩
    rw [(lineParse_cacheLine p.1 p.2 (hclean p hp)).2]
    simp
  rw [hdict, hdirty]

/-- C5: writing any finite mapping from (hex, hence nonempty and
whitespace-free) identity hashes to non-negative integer triples
`(commit_count, additions, deletions)` in the four-field line format and
reading it back with the cache parser reproduces the same mapping, with no
dirty flag. -/
theorem c5_cache_roundtrip (fc : List (List Char × CacheEntry))
    (hclean : ∀ p ∈ fc, cleanTok p.1)
    (hnodup : (dictKeys fc).Nodup)
    (hnonneg : ∀ p ∈ fc, 0 ≤ p.2.1 ∧ 0 ≤ p.2.2.1 ∧ 0 ≤ p.2.2.2) :
    readCache (writeCache fc) = (fc, false) :=
  readCache_writeCache fc hclean hnodup

/-- C5 witness: a concrete two-entry mapping round-trips. -/
theorem c5_cache_roundtrip_witness :
    readCache (writeCache
      [("ab12".data, ((5 : Int), 100, 10)), ("cd34".data, ((3 : Int), 7, 0))]) =
      ([("ab12".data, ((5 : Int), 100, 10)), ("cd34".data, ((3 : Int), 7, 0))],
        false) :=
  c5_cache_roundtrip _ (by decide) (by decide) (by decide)

/-! ## C7 -/

/-- Python truthiness of `os.environ.get(...)`: `None` and `""` are falsy. -/
def truthy : Option String → Bool
  | none => false
  | some s => !(s == "")

/-- `ACCESS_TOKEN = os.environ.get("ACCESS_TOKEN")` (line 12). -/
def ACCESS_TOKEN (env : String → Option String) : Option String :=
  env "ACCESS_TOKEN"

/-- `USER_NAME = os.environ.get("USER_NAME", "rexdotsh")` (line 13): the
target user login has a default and is not checked for presence. -/
def USER_NAME (env : String → Option String) : String :=
  (env "USER_NAME").getD "rexdotsh"

/-- `UPSTASH_URL = os.environ.get("UPSTASH_REDIS_REST_URL")` (line 15). -/
def UPSTASH_URL (env : String → Option String) : Option String :=
  env "UPSTASH_REDIS_REST_URL"

/-- `UPSTASH_TOKEN = os.environ.get("UPSTASH_REDIS_REST_TOKEN")` (line 16). -/
def UPSTASH_TOKEN (env : String → Option String) : Option String :=
  env "UPSTASH_REDIS_REST_TOKEN"

/-- `MANDATORY_ENV_VARS` (lines 18-22): exactly three variables. -/
def MANDATORY_ENV_VARS (env : String → Option String) :
    List (String × Option String) :=
  [("ACCESS_TOKEN", ACCESS_TOKEN env),
   ("UPSTASH_REDIS_REST_URL", UPSTASH_URL env),
   ("UPSTASH_REDIS_REST_TOKEN", UPSTASH_TOKEN env)]

/-- `missing_vars` (line 23). -/
def missing_vars (env : String → Option String) : List String :=
  ((MANDATORY_ENV_VARS env).filter fun p => !truthy p.2).map Prod.fst

/-- The module-level startup check (lines 23-27): `sys.exit(1)` when any
mandatory variable is unset or empty.  This check is the first statement
after reading the environment — it precedes the Redis-client construction
and every network request in the file, so an abort happens before any
network activity; `none` means execution continues. -/
def startupExit (env : String → Option String) : Option Nat :=
  if missing_vars env ≠ [] then some 1 else none

/-- An environment with the three actually-mandatory variables set but no
`USER_NAME`. -/
def envNoUser : String → Option String := fun name =>
  if name = "ACCESS_TOKEN" ∨ name = "UPSTASH_REDIS_REST_URL" ∨
      name = "UPSTASH_REDIS_REST_TOKEN" then some "x" else none

/-- An environment missing the identity token. -/
def envNoToken : String → Option String := fun name =>
  if name = "UPSTASH_REDIS_REST_URL" ∨ name = "UPSTASH_REDIS_REST_TOKEN"
    then some "x" else none

/-- C7 (counterexample): with the identity token, store endpoint and store
credential present but the target user login absent from the environment,
the program does **not** abort: `USER_NAME` silently defaults to
`"rexdotsh"`.  So "absence of any of the four mandatory values aborts the
run" fails for the target user login. -/
theorem c7_counterexample :
    envNoUser "USER_NAME" = none ∧
      startupExit envNoUser = none ∧
      USER_NAME envNoUser = "rexdotsh" := by
  constructor
  · rfl
  · constructor <;> rfl

/-- C7 (amended): the mandatory configuration is exactly the identity token
(`ACCESS_TOKEN`), the key-value store endpoint (`UPSTASH_REDIS_REST_URL`)
and the key-value store credential (`UPSTASH_REDIS_REST_TOKEN`); absence (or
emptiness) of any of these aborts the run immediately with exit status 1,
before any network activity.  The target user login is optional and
defaults to `"rexdotsh"`; when the three mandatory values are present the
run proceeds regardless of it. -/
theorem c7_mandatory_env_abort (env : String → Option String) :
    (truthy (ACCESS_TOKEN env) = false → startupExit env = some 1) ∧
      (truthy (UPSTASH_URL env) = false → startupExit env = some 1) ∧
      (truthy (UPSTASH_TOKEN env) = false → startupExit env = some 1) ∧
      (truthy (ACCESS_TOKEN env) = true → truthy (UPSTASH_URL env) = true →
        truthy (UPSTASH_TOKEN env) = true → startupExit env = none) := by
  unfold startupExit missing_vars MANDATORY_ENV_VARS
  refine ⟨?_, ?_, ?_, ?_⟩
  · intro h
    simp [h]
  · intro h
    simp [h]
  · intro h
    simp [h]
  · intro h1 h2 h3
    simp [h1, h2, h3]

/-- C7 witness for the amended statement: a missing token aborts with exit
status 1; with all three mandatory values present (and no `USER_NAME`), the
run continues. -/
theorem c7_mandatory_env_abort_witness :
    startupExit envNoToken = some 1 ∧ startupExit envNoUser = none :=
  ⟨(c7_mandatory_env_abort envNoToken).1 (by decide),
   (c7_mandatory_env_abort envNoUser).2.2.2 (by decide) (by decide) (by decide)⟩

/-! ## C8 -/

/-- Total additions over a list of processed history pages. -/
def pagesAdds (pages : List HistPage) : Nat :=
  (pages.map fun p => (p.nodes.map Prod.fst).sum).sum

/-- Total deletions over a list of processed history pages. -/
def pagesDels (pages : List HistPage) : Nat :=
  (pages.map fun p => (p.nodes.map Prod.snd).sum).sum

/-- Total commits over a list of processed history pages. -/
def pagesCommits (pages : List HistPage) : Nat :=
  (pages.map fun p => p.nodes.length).sum

/-- All edges over a list of processed repository pages. -/
def repoPagesEdges (pages : List RepoPage) : List RepoEdge :=
  (pages.map RepoPage.edges).join

theorem fetchCommitLocRest_stops (pages : List HistPage)
    (hgood : ∀ p ∈ pages, p.hasNextPage = true ∧ p.endCursorSome = true) :
    ∀ (tail : List (Gql HistPage)) (a d c : Nat),
    fetchCommitLocRest (pages.map Gql.page ++ Gql.transient :: tail) a d c =
      (a + pagesAdds pages, d + pagesDels pages, c + pagesCommits pages) := by
  induction pages with
  | nil =>
    intro tail a d c
    simp [fetchCommitLocRest, pagesAdds, pagesDels, pagesCommits]
  | cons p rest ih =>
    intro tail a d c
    rw [List.map_cons, List.cons_append]
    rw [show fetchCommitLocRest (Gql.page p :: (rest.map Gql.page ++
        Gql.transient :: tail)) a d c =
      (if p.hasNextPage && p.endCursorSome then
        fetchCommitLocRest (rest.map Gql.page ++ Gql.transient :: tail)
          (a + (p.nodes.map Prod.fst).sum) (d + (p.nodes.map Prod.snd).sum)
          (c + p.nodes.length)
      else (a + (p.nodes.map Prod.fst).sum, d + (p.nodes.map Prod.snd).sum,
        c + p.nodes.length)) from rfl]
    have hp := hgood p (by simp)
    rw [hp.1, hp.2]
    simp only [Bool.and_self, if_true]
    rw [ih (fun q hq => hgood q (by simp [hq])) tail]
    unfold pagesAdds pagesDels pagesCommits
    simp
    refine ⟨by ring, by ring, by ring⟩

theorem fetchCommitLoc_stops (pages : List HistPage)
    (hgood : ∀ p ∈ pages, p.hasNextPage = true ∧ p.endCursorSome = true)
    (tail : List (Gql HistPage)) :
    fetchCommitLoc (pages.map Gql.page ++ Gql.transient :: tail) =
      .ok (pagesAdds pages, pagesDels pages, pagesCommits pages) := by
  cases pages with
  | nil => simp [fetchCommitLoc, pagesAdds, pagesDels, pagesCommits]
  | cons p rest =>
    rw [List.map_cons, List.cons_append]
    rw [show fetchCommitLoc (Gql.page p :: (rest.map Gql.page ++
        Gql.transient :: tail)) =
      (if p.hasNextPage && p.endCursorSome then
        .ok (fetchCommitLocRest (rest.map Gql.page ++ Gql.transient :: tail)
          ((p.nodes.map Prod.fst).sum) ((p.nodes.map Prod.snd).sum)
          (p.nodes.length))
      else .ok ((p.nodes.map Prod.fst).sum, (p.nodes.map Prod.snd).sum,
        p.nodes.length)) from rfl]
    have hp := hgood p (by simp)
    rw [hp.1, hp.2]
    simp only [Bool.and_self, if_true]
    rw [fetchCommitLocRest_stops rest
      (fun q hq => hgood q (by simp [hq])) tail]
    unfold pagesAdds pagesDels pagesCommits
    simp

theorem fetchRepos_stops (pages : List RepoPage)
    (hgood : ∀ p ∈ pages, p.hasNextPage = true ∧ p.endCursorSome = true) :
    ∀ (tail : List (Gql RepoPage)) (acc : List RepoEdge),
    fetchRepos (pages.map Gql.page ++ Gql.transient :: tail) acc =
      .ok (acc ++ repoPagesEdges pages) := by
  induction pages with
  | nil =>
    intro tail acc
    simp [fetchRepos, repoPagesEdges]
  | cons p rest ih =>
    intro tail acc
    rw [List.map_cons, List.cons_append]
    rw [show fetchRepos (Gql.page p :: (rest.map Gql.page ++
        Gql.transient :: tail)) acc =
      (if p.hasNextPage && p.endCursorSome then
        fetchRepos (rest.map Gql.page ++ Gql.transient :: tail) (acc ++ p.edges)
      else .ok (acc ++ p.edges)) from rfl]
    have hp := hgood p (by simp)
    rw [hp.1, hp.2]
    simp only [Bool.and_self, if_true]
    rw [ih (fun q hq => hgood q (by simp [hq])) tail]
    unfold repoPagesEdges
    simp

/-- C8: on a transient provider failure (HTTP 403, HTTP 5xx or a GraphQL
rate-limit error, all of which make `_graphql_request` return `None`) at any
point of either pagination loop, the loop stops — the outcomes after the
transient one are never requested — and returns the partial results
accumulated from the pages already processed, as a normal (`ok`) result
rather than an exception: the repository lister returns the edges gathered
so far, and the commit-history fetcher returns the additions/deletions/
commits summed so far. -/
theorem c8_transient_stops_early (hpages : List HistPage) (rpages : List RepoPage)
    (hgoodh : ∀ p ∈ hpages, p.hasNextPage = true ∧ p.endCursorSome = true)
    (hgoodr : ∀ p ∈ rpages, p.hasNextPage = true ∧ p.endCursorSome = true)
    (htail : List (Gql HistPage)) (rtail : List (Gql RepoPage)) :
    fetchCommitLoc (hpages.map Gql.page ++ Gql.transient :: htail) =
        .ok (pagesAdds hpages, pagesDels hpages, pagesCommits hpages) ∧
      fetchRepos (rpages.map Gql.page ++ Gql.transient :: rtail) [] =
        .ok (repoPagesEdges rpages) :=
  ⟨fetchCommitLoc_stops hpages hgoodh htail,
   fetchRepos_stops rpages hgoodr rtail []⟩

/-- C8 witness: one full history page and one full repository page followed
by a rate-limit outcome yield exactly the first pages' partial totals. -/
theorem c8_transient_stops_early_witness :
    fetchCommitLoc ([HistPage.mk [(1, 2), (3, 4)] true true].map Gql.page ++
        Gql.transient :: [Gql.fatal]) =
      .ok (pagesAdds [HistPage.mk [(1, 2), (3, 4)] true true],
        pagesDels [HistPage.mk [(1, 2), (3, 4)] true true],
        pagesCommits [HistPage.mk [(1, 2), (3, 4)] true true]) ∧
    fetchRepos ([RepoPage.mk [RepoEdge.mk (some "o/a".data) (some 5)] true
        true].map Gql.page ++ Gql.transient :: [Gql.fatal]) [] =
      .ok (repoPagesEdges [RepoPage.mk [RepoEdge.mk (some "o/a".data)
        (some 5)] true true]) :=
  c8_transient_stops_early [HistPage.mk [(1, 2), (3, 4)] true true]
    [RepoPage.mk [RepoEdge.mk (some "o/a".data) (some 5)] true true]
    (by decide) (by decide) [Gql.fatal] [Gql.fatal]

/-! ## C10 -/

/-- The per-commit nodes actually processed by `_fetch_commit_loc` from the
second page on (the traversal stops at the first transient or swallowed
fatal outcome, or at the last page). -/
def fetchTraceRest : List (Gql HistPage) → List (Nat × Nat)
  | [] => []
  | .fatal :: _ => []
  | .transient :: _ => []
  | .page p :: rest =>
    if p.hasNextPage && p.endCursorSome then p.nodes ++ fetchTraceRest rest
    else p.nodes

/-- The per-commit nodes actually processed by a `_fetch_commit_loc` call
(`none` when the very first request raises and the call aborts). -/
def fetchTrace : List (Gql HistPage) → Option (List (Nat × Nat))
  | [] => some []
  | .fatal :: _ => none
  | .transient :: _ => some []
  | .page p :: rest =>
    some (if p.hasNextPage && p.endCursorSome then p.nodes ++ fetchTraceRest rest
      else p.nodes)

theorem fetchCommitLocRest_eq_trace (stream : List (Gql HistPage)) :
    ∀ a d c : Nat,
    fetchCommitLocRest stream a d c =
      (a + ((fetchTraceRest stream).map Prod.fst).sum,
       d + ((fetchTraceRest stream).map Prod.snd).sum,
       c + (fetchTraceRest stream).length) := by
  induction stream with
  | nil => intro a d c; simp [fetchCommitLocRest, fetchTraceRest]
  | cons o rest ih =>
    intro a d c
    cases o with
    | fatal => simp [fetchCommitLocRest, fetchTraceRest]
    | transient => simp [fetchCommitLocRest, fetchTraceRest]
    | page p =>
      rw [show fetchCommitLocRest (Gql.page p :: rest) a d c =
        (if p.hasNextPage && p.endCursorSome then
          fetchCommitLocRest rest (a + (p.nodes.map Prod.fst).sum)
            (d + (p.nodes.map Prod.snd).sum) (c + p.nodes.length)
        else (a + (p.nodes.map Prod.fst).sum, d + (p.nodes.map Prod.snd).sum,
          c + p.nodes.length)) from rfl]
      rw [show fetchTraceRest (Gql.page p :: rest) =
        (if p.hasNextPage && p.endCursorSome then p.nodes ++ fetchTraceRest rest
          else p.nodes) from rfl]
      cases hnext : p.hasNextPage && p.endCursorSome with
      | true =>
        simp only [if_true]
        rw [ih]
        simp [add_assoc]
      | false => simp

/-- A `_fetch_commit_loc` call that returns normally returns exactly the
sums and count over the nodes it actually processed. -/
theorem fetchCommitLoc_eq_trace (stream : List (Gql HistPage))
    (v : Nat × Nat × Nat) (h : fetchCommitLoc stream = .ok v) :
    ∃ trace : List (Nat × Nat), fetchTrace stream = some trace ∧
      v = ((trace.map Prod.fst).sum, (trace.map Prod.snd).sum, trace.length) := by
  cases stream with
  | nil =>
    refine ⟨[], rfl, ?_⟩
    have : v = (0, 0, 0) := by
      have h' : Except.ok (0, 0, 0) = (Except.ok v : Except Unit (Nat × Nat × Nat)) := h ▸ rfl
      exact (Except.ok.inj h').symm
    simp [this]
  | cons o rest =>
    cases o with
    | fatal => cases h
    | transient =>
      refine ⟨[], rfl, ?_⟩
      have h' : Except.ok (0, 0, 0) = (Except.ok v : Except Unit (Nat × Nat × Nat)) := h ▸ rfl
      simp [(Except.ok.inj h').symm]
    | page p =>
      have hv : v = (if p.hasNextPage && p.endCursorSome then
          fetchCommitLocRest rest ((p.nodes.map Prod.fst).sum)
            ((p.nodes.map Prod.snd).sum) (p.nodes.length)
        else ((p.nodes.map Prod.fst).sum, (p.nodes.map Prod.snd).sum,
          p.nodes.length)) := by
        have h' : fetchCommitLoc (Gql.page p :: rest) =
          .ok (if p.hasNextPage && p.endCursorSome then
            fetchCommitLocRest rest ((p.nodes.map Prod.fst).sum)
              ((p.nodes.map Prod.snd).sum) (p.nodes.length)
          else ((p.nodes.map Prod.fst).sum, (p.nodes.map Prod.snd).sum,
            p.nodes.length)) := by
          rw [fetchCommitLoc]
          cases p.hasNextPage && p.endCursorSome <;> simp
        rw [h] at h'
        exact Except.ok.inj h'
      refine ⟨if p.hasNextPage && p.endCursorSome then
          p.nodes ++ fetchTraceRest rest else p.nodes, rfl, ?_⟩
      cases hnext : p.hasNextPage && p.endCursorSome with
      | true =>
        rw [hnext] at hv
        simp only [if_true] at hv ⊢
        rw [hv, fetchCommitLocRest_eq_trace]
        simp
      | false =>
        rw [hnext] at hv
        simpa using hv

/-- A one-repository listing (`o/a`, 5 commits reported). -/
def exRepoStreamOne : List (Gql RepoPage) :=
  [Gql.page ⟨[⟨some "o/a".data, some 5⟩], false, false⟩]

/-- The edges delivered by `exRepoStreamOne`. -/
def exEdgesOne : List RepoEdge := [⟨some "o/a".data, some 5⟩]

/-- A history provider that serves one page with a single commit and then
rate-limits, ending the fetch early. -/
def exHistCut : List Char → List (Gql HistPage) :=
  fun _ => [Gql.page ⟨[(1, 2)], true, true⟩, Gql.transient]

/-- The state of the partial-fetch run: the stored entry records 1 processed
commit although the listing reported 5. -/
def exCutState : LoopState :=
  { totalAdd := 1, totalDel := 2,
    finalCache := [("hoa".data, (1, 1, 2))],
    cacheNeedsUpdate := true,
    fetched := ["o/a".data] }

/-- C10: whenever a repository is recomputed, the persisted entry is
internally consistent — its `commit_count` is the number of commits the
history fetcher actually processed, and its additions/deletions are the sums
over exactly those commits; and (concretely) when a transient failure ends
the fetch early, the stored `commit_count` (1) differs from the listing's
count (5). -/
theorem c10_recomputed_count_consistent (hashFn : List Char → List Char)
    (repoStream : List (Gql RepoPage)) (hist : List Char → List (Gql HistPage))
    (cacheFile : Option (List (List Char))) (st : LoopState)
    (edges : List RepoEdge) (h nameOwner : List Char) (count : Nat)
    (hedges : fetchRepos repoStream [] = .ok edges)
    (hrun : calculateLocStats hashFn repoStream hist cacheFile = .ok st)
    (hmem : (h, (nameOwner, count)) ∈ buildCurrentRepos hashFn edges)
    (hnohit : ∀ c a d : Int,
      dictGet h (readCacheFile cacheFile).1 = some (c, a, d) →
        c ≠ (count : Int)) :
    (∃ trace : List (Nat × Nat), fetchTrace (hist nameOwner) = some trace ∧
      dictGet h st.finalCache = some ((trace.length : Int),
        (((trace.map Prod.fst).sum : Nat) : Int),
        (((trace.map Prod.snd).sum : Nat) : Int))) ∧
    (calculateLocStats exHash exRepoStreamOne exHistCut none =
        .ok exCutState ∧
      ("hoa".data, ("o/a".data, 5)) ∈ buildCurrentRepos exHash exEdgesOne ∧
      dictGet "hoa".data exCutState.finalCache = some (1, 1, 2) ∧
      (1 : Int) ≠ ((5 : Nat) : Int)) := by
  constructor
  · obtain ⟨adds, dels, commits, hfetch, hentry, _⟩ :=
      recalc_path_spec hashFn repoStream hist cacheFile st edges
        h nameOwner count hedges hrun hmem hnohit
    obtain ⟨trace, htrace, hval⟩ := fetchCommitLoc_eq_trace _ _ hfetch
    refine ⟨trace, htrace, ?_⟩
    rw [hentry]
    rw [Prod.mk.injEq, Prod.mk.injEq] at hval
    rw [hval.1, hval.2.1, hval.2.2]
  · exact ⟨by decide, by decide, by decide, by decide⟩

/-- C10 witness: the partial-fetch scenario, where the trace holds the one
processed commit. -/
theorem c10_recomputed_count_consistent_witness :
    (∃ trace : List (Nat × Nat),
      fetchTrace (exHistCut "o/a".data) = some trace ∧
      dictGet "hoa".data exCutState.finalCache = some ((trace.length : Int),
        (((trace.map Prod.fst).sum : Nat) : Int),
        (((trace.map Prod.snd).sum : Nat) : Int))) ∧
    (calculateLocStats exHash exRepoStreamOne exHistCut none =
        .ok exCutState ∧
      ("hoa".data, ("o/a".data, 5)) ∈ buildCurrentRepos exHash exEdgesOne ∧
      dictGet "hoa".data exCutState.finalCache = some (1, 1, 2) ∧
      (1 : Int) ≠ ((5 : Nat) : Int)) :=
  c10_recomputed_count_consistent exHash exRepoStreamOne exHistCut none
    exCutState exEdgesOne "hoa".data "o/a".data 5
    (by decide) (by decide) (by decide)
    (by
      intro c a d hx
      have hnone : dictGet "hoa".data (readCacheFile none).1 = none := by decide
      rw [hnone] at hx
      cases hx)

/-! ## C4 -/

/-- A cache hit's entry records exactly the current commit count. -/
theorem hitEntry?_count {cachedData : List (List Char × CacheEntry)}
    {r : List Char × (List Char × Nat)} {e : CacheEntry}
    (h : hitEntry? cachedData r = some e) : e.1 = (r.2.2 : Int) := by
  unfold hitEntry? FORCE_CACHE_REFRESH at h
  cases hget : dictGet r.1 cachedData with
  | none =>
    rw [hget] at h
    cases h
  | some e0 =>
    obtain ⟨c, a, d⟩ := e0
    rw [hget] at h
    have h' : (if c = (r.2.2 : Int) then some (c, a, d) else none) = some e := h
    by_cases hc : c = (r.2.2 : Int)
    · rw [if_pos hc] at h'
      rw [← Option.some.inj h']
      exact hc
    · rw [if_neg hc] at h'
      cases h'

/-- Re-running `specEntries` against any cache that already holds each
repository's final entry reproduces the same entries. -/
theorem specEntries_rerun (hist : List Char → List (Gql HistPage))
    (cd0 cdFull : List (List Char × CacheEntry)) :
    ∀ (repos : List (List Char × (List Char × Nat)))
      (entries : List (List Char × CacheEntry)),
    specEntries cd0 hist repos = .ok entries →
    (∀ r ∈ repos, ∀ e : CacheEntry, repoEntry cd0 hist r = .ok e →
      dictGet r.1 cdFull = some e) →
    specEntries cdFull hist repos = .ok entries := by
  intro repos
  induction repos with
  | nil => intro entries hspec _; exact hspec
  | cons r rest ih =>
    intro entries hspec hagree
    rw [specEntries] at hspec ⊢
    cases hre : repoEntry cd0 hist r with
    | error e0 => rw [hre] at hspec; cases hspec
    | ok e =>
      rw [hre] at hspec
      cases hrest : specEntries cd0 hist rest with
      | error e2 =>
        rw [hrest] at hspec
        cases hspec
      | ok tail =>
        rw [hrest] at hspec
        have hget : dictGet r.1 cdFull = some e := hagree r (by simp) e hre
        have hre2 : repoEntry cdFull hist r = .ok e := by
          unfold repoEntry
          cases hhit : hitEntry? cdFull r with
          | some e2 =>
            have he2 : e2 = e := by
              unfold hitEntry? FORCE_CACHE_REFRESH at hhit
              rw [hget] at hhit
              obtain ⟨c, a, d⟩ := e
              have hhit' : (if c = (r.2.2 : Int) then some (c, a, d) else none) =
                  some e2 := hhit
              by_cases hc : c = (r.2.2 : Int)
              · rw [if_pos hc] at hhit'
                exact (Option.some.inj hhit').symm
              · rw [if_neg hc] at hhit'
                cases hhit'
            rw [he2]
          | none =>
            have hec : e.1 ≠ (r.2.2 : Int) := by
              unfold hitEntry? FORCE_CACHE_REFRESH at hhit
              rw [hget] at hhit
              obtain ⟨c, a, d⟩ := e
              have hhit' : (if c = (r.2.2 : Int) then some (c, a, d) else none) =
                  none := hhit
              intro hc
              rw [if_pos hc] at hhit'
              cases hhit'
            unfold repoEntry at hre
            cases hhit0 : hitEntry? cd0 r with
            | some e0 =>
              rw [hhit0] at hre
              have he0 : e0 = e := Except.ok.inj hre
              subst he0
              exact absurd (hitEntry?_count hhit0) hec
            | none =>
              rw [hhit0] at hre
              exact hre
        rw [hre2, ih tail hrest
          (fun q hq e' he' => hagree q (by simp [hq]) e' he')]
        exact hspec

/-- C4: re-running the aggregation with the same upstream responses yields
the same totals (and hence the same net), the same final cache, and leaves
the on-disk cache file unchanged after the second run. -/
theorem c4_idempotent_rerun (hashFn : List Char → List Char)
    (repoStream : List (Gql RepoPage)) (hist : List Char → List (Gql HistPage))
    (cacheFile : Option (List (List Char))) (st1 : LoopState)
    (edges : List RepoEdge)
    (hkeys : ∀ p ∈ buildCurrentRepos hashFn edges, cleanTok p.1)
    (hedges : fetchRepos repoStream [] = .ok edges)
    (hrun1 : calculateLocStats hashFn repoStream hist cacheFile = .ok st1) :
    ∃ st2 : LoopState,
      calculateLocStats hashFn repoStream hist (cacheAfterRun cacheFile st1) =
          .ok st2 ∧
        st2.totalAdd = st1.totalAdd ∧
        st2.totalDel = st1.totalDel ∧
        st2.totalAdd - st2.totalDel = st1.totalAdd - st1.totalDel ∧
        st2.finalCache = st1.finalCache ∧
        cacheAfterRun (cacheAfterRun cacheFile st1) st2 =
          cacheAfterRun cacheFile st1 := by
  obtain ⟨hspec, hta, htd, hupd, hfetched⟩ :=
    calculateLocStats_ok hashFn repoStream hist cacheFile st1 edges hedges hrun1
  set repos := buildCurrentRepos hashFn edges with hrepos
  have hnodup : (repos.map Prod.fst).Nodup := buildCurrentRepos_nodup hashFn edges
  cases hflag : st1.cacheNeedsUpdate with
  | false =>
    have hcf : cacheAfterRun cacheFile st1 = cacheFile := by
      unfold cacheAfterRun
      rw [hflag]
      rfl
    refine ⟨st1, ?_, rfl, rfl, rfl, rfl, ?_⟩
    · rw [hcf]
      exact hrun1
    · rw [hcf]
      unfold cacheAfterRun
      rw [hflag]
      rfl
  | true =>
    have hcf : cacheAfterRun cacheFile st1 = some (writeCache st1.finalCache) := by
      unfold cacheAfterRun
      rw [hflag]
      rfl
    have hkeysE : dictKeys st1.finalCache = dictKeys repos :=
      specEntries_keys _ hist repos st1.finalCache hspec
    have hcleanE : ∀ p ∈ st1.finalCache, cleanTok p.1 := by
      intro p hp
      have hpk : p.1 ∈ dictKeys repos := by
        rw [← hkeysE]
        exact List.mem_map_of_mem Prod.fst hp
      rcases List.mem_map.mp hpk with ⟨q, hq, hqe⟩
      rw [← hqe]
      exact hkeys q hq
    have hnodupE : (dictKeys st1.finalCache).Nodup := by
      rw [hkeysE]
      exact hnodup
    have hread : readCacheFile (some (writeCache st1.finalCache)) =
        (st1.finalCache, false) := by
      unfold readCacheFile
      exact readCache_writeCache st1.finalCache hcleanE hnodupE
    have hagree : ∀ r ∈ repos, ∀ e : CacheEntry,
        repoEntry (readCacheFile cacheFile).1 hist r = .ok e →
        dictGet r.1 st1.finalCache = some e := by
      intro r hr e he
      obtain ⟨e', he1, he2⟩ :=
        specEntries_lookup (readCacheFile cacheFile).1 hist repos st1.finalCache
          r hnodup hr hspec
      rw [he] at he1
      rw [(Except.ok.inj he1)]
      exact he2
    have hspec2 : specEntries st1.finalCache hist repos = .ok st1.finalCache :=
      specEntries_rerun hist (readCacheFile cacheFile).1 st1.finalCache repos
        st1.finalCache hspec hagree
    rw [hcf]
    rw [calculateLocStats_eq hashFn repoStream hist
      (some (writeCache st1.finalCache)) edges hedges]
    rw [show (readCacheFile (some (writeCache st1.finalCache))).1 =
      st1.finalCache from by rw [hread]]
    rw [hspec2]
    refine ⟨_, rfl, ?_, ?_, ?_, rfl, ?_⟩
    · rw [← hta]
    · rw [← htd]
    · rw [← hta, ← htd]
    · unfold cacheAfterRun
      cases (initialDirty (some (writeCache st1.finalCache)) repos ||
          anyMiss st1.finalCache repos) with
      | false => rfl
      | true => rfl

/-- C4 witness: re-running the concrete scenario on its own rewritten cache
reproduces the totals and final cache and leaves the cache file unchanged. -/
theorem c4_idempotent_rerun_witness :
    ∃ st2 : LoopState,
      calculateLocStats exHash exRepoStream exHist
          (cacheAfterRun (some exCacheLines) exRunState) = .ok st2 ∧
        st2.totalAdd = exRunState.totalAdd ∧
        st2.totalDel = exRunState.totalDel ∧
        st2.totalAdd - st2.totalDel =
          exRunState.totalAdd - exRunState.totalDel ∧
        st2.finalCache = exRunState.finalCache ∧
        cacheAfterRun (cacheAfterRun (some exCacheLines) exRunState) st2 =
          cacheAfterRun (some exCacheLines) exRunState :=
  c4_idempotent_rerun exHash exRepoStream exHist (some exCacheLines)
    exRunState exEdges (by decide) (by decide) (by decide)

/-! ## C6: the document patcher (`update_readme`)

The three regular expressions of `update_readme` are concatenations of
literal text and character-class repetitions (`[\d,]+` or `\d+`).  In every
pattern, the character following each class repetition is a literal that is
not in the class (`*` after `[\d,]+`, a space after `\d+`), so Python's
greedy backtracking matcher consumes exactly the maximal run of class
characters: shorter choices leave a class character in front of the literal,
which can never match.  The matcher below therefore uses maximal munch,
which coincides with `re` semantics on these patterns.  `\d` is modelled as
ASCII digits (the replacement values only produce ASCII digits, and none of
the literals contains a digit of any script, so the idempotence statement is
unaffected). -/

/-- One segment of a pattern: a literal, or a `+`-repetition of a class. -/
inductive Seg : Type
  | lit (l : List Char) : Seg
  | hole (cls : Char → Bool) : Seg

/-- Maximal-munch matching of a pattern at the head of a string, returning
the number of characters consumed. -/
def matchLen : List Seg → List Char → Option Nat
  | [], _ => some 0
  | .lit l :: segs, s =>
    if l.isPrefixOf s then (matchLen segs (s.drop l.length)).map (· + l.length)
    else none
  | .hole cls :: segs, s =>
    let r := s.takeWhile cls
    if r.isEmpty then none
    else (matchLen segs (s.drop r.length)).map (· + r.length)

/-- `re.sub(pattern, repl, s)`: scan left to right, replacing each
(non-overlapping, leftmost) match and resuming after it.  The `some 0`
branch is unreachable for patterns beginning with a nonempty literal (every
match then consumes at least one character); it mirrors the scan step of a
zero-width match conservatively. -/
def reSub (p : List Seg) (R : List Char) (s : List Char) : List Char :=
  match s with
  | [] => []
  | c :: rest =>
    match matchLen p (c :: rest) with
    | some (n + 1) => R ++ reSub p R (List.drop (n + 1) (c :: rest))
    | some 0 => c :: reSub p R rest
    | none => c :: reSub p R rest
termination_by s.length
decreasing_by
  all_goals simp only [List.length_cons, List.length_drop]
  all_goals omega

/-- A string that instantiates a pattern: literals verbatim, each hole
replaced by a nonempty run of its class. -/
inductive InstOf : List Seg → List Char → Prop
  | nil : InstOf [] []
  | lit (l : List Char) (segs : List Seg) (rest : List Char) :
      InstOf segs rest → InstOf (.lit l :: segs) (l ++ rest)
  | hole (cls : Char → Bool) (f : List Char) (segs : List Seg)
      (rest : List Char) : f ≠ [] → (∀ c ∈ f, cls c = true) →
      InstOf segs rest → InstOf (.hole cls :: segs) (f ++ rest)

/-- Well-formedness of a pattern: literals are nonempty and class-free, and
every hole is immediately followed by a literal. -/
def PatWF (K : Char → Bool) : List Seg → Prop
  | [] => True
  | .lit l :: segs => l ≠ [] ∧ (∀ c ∈ l, K c = false) ∧ PatWF K segs
  | .hole cls :: segs =>
    cls = K ∧ (∃ l segs', segs = .lit l :: segs') ∧ PatWF K segs

theorem takeWhile_append_of_all {K : Char → Bool} (f : List Char)
    (hf : ∀ c ∈ f, K c = true) (rest : List Char) :
    rest.takeWhile K = [] → (f ++ rest).takeWhile K = f := by
  intro hrest
  induction f with
  | nil => simpa using hrest
  | cons c t ih =>
    rw [List.cons_append, List.takeWhile_cons, hf c (by simp)]
    simp only [if_true]
    rw [ih fun x hx => hf x (by simp [hx])]

theorem dropWhile_of_takeWhile_nil {K : Char → Bool} (rest : List Char)
    (hrest : rest.takeWhile K = []) : rest.dropWhile K = rest := by
  cases rest with
  | nil => rfl
  | cons c t =>
    rw [List.takeWhile_cons] at hrest
    by_cases hc : K c
    · rw [hc] at hrest
      simp at hrest
    · rw [List.dropWhile_cons, if_neg (by simp [hc])]

theorem dropWhile_append_of_all {K : Char → Bool} (f : List Char)
    (hf : ∀ c ∈ f, K c = true) (rest : List Char) :
    rest.takeWhile K = [] → (f ++ rest).dropWhile K = rest := by
  intro hrest
  induction f with
  | nil =>
    rw [List.nil_append]
    exact dropWhile_of_takeWhile_nil rest hrest
  | cons c t ih =>
    rw [List.cons_append, List.dropWhile_cons, hf c (by simp)]
    simp only [if_true]
    exact ih fun x hx => hf x (by simp [hx])

theorem takeWhile_nil_of_head {K : Char → Bool} (l : List Char) (hl : l ≠ [])
    (hK : ∀ c ∈ l, K c = false) (y : List Char) :
    (l ++ y).takeWhile K = [] := by
  cases l with
  | nil => exact absurd rfl hl
  | cons c t =>
    rw [List.cons_append, List.takeWhile_cons, hK c (by simp)]
    simp

/-- A pattern instance followed by anything matches, consuming exactly the
instance (maximal munch never overruns: each hole run is delimited by the
following literal\'s class-free head). -/
theorem matchLen_inst {K : Char → Bool} :
    ∀ {p : List Seg} {inst : List Char}, PatWF K p → InstOf p inst →
    ∀ t, matchLen p (inst ++ t) = some inst.length := by
  intro p inst hwf hinst
  induction hinst with
  | nil => intro t; rfl
  | lit l segs rest hrest ih =>
    intro t
    obtain ⟨hl, hlK, hwfs⟩ := hwf
    rw [matchLen, List.append_assoc,
      if_pos (List.isPrefixOf_iff_prefix.mpr (List.prefix_append l (rest ++ t))),
      List.drop_left, ih hwfs t]
    simp [List.length_append, Nat.add_comm]
  | hole cls f segs rest hf hfK hrest ih =>
    intro t
    obtain ⟨hcls, ⟨l2, segs2, hsegs⟩, hwfs⟩ := hwf
    subst hcls
    have hl2 : l2 ≠ [] ∧ ∀ c ∈ l2, cls c = false := by
      rw [hsegs] at hwfs
      exact ⟨hwfs.1, hwfs.2.1⟩
    have hrestform : ∃ rest2, rest = l2 ++ rest2 := by
      rw [hsegs] at hrest
      cases hrest with
      | lit _ _ rest2 _ => exact ⟨rest2, rfl⟩
    obtain ⟨rest2, hr2⟩ := hrestform
    have hheadnil : (rest ++ t).takeWhile cls = [] := by
      rw [hr2, List.append_assoc]
      exact takeWhile_nil_of_head l2 hl2.1 hl2.2 _
    have htake : ((f ++ rest) ++ t).takeWhile cls = f := by
      rw [List.append_assoc]
      exact takeWhile_append_of_all f hfK (rest ++ t) hheadnil
    have hne : f.isEmpty = false := by
      cases f with
      | nil => exact absurd rfl hf
      | cons a b => rfl
    have hdrop : List.drop f.length ((f ++ rest) ++ t) = rest ++ t := by
      rw [List.append_assoc]
      exact List.drop_left f (rest ++ t)
    rw [matchLen]
    simp only [htake, hne, Bool.false_eq_true, if_false, hdrop, ih hwfs t]
    simp [List.length_append, Nat.add_comm]

/-! ### Matcher step equations -/

theorem matchLen_lit_none {l : List Char} {segs : List Seg} {s : List Char}
    (h : l.isPrefixOf s = false) : matchLen (.lit l :: segs) s = none := by
  rw [matchLen, h]
  rfl

theorem matchLen_lit_cons (l : List Char) (segs : List Seg) (s : List Char) :
    matchLen (.lit l :: segs) (l ++ s) = (matchLen segs s).map (· + l.length) := by
  rw [matchLen, if_pos (List.isPrefixOf_iff_prefix.mpr (List.prefix_append l s)),
    List.drop_left]

theorem matchLen_hole_none {K : Char → Bool} {segs : List Seg} {c : Char}
    {s : List Char} (h : K c = false) :
    matchLen (.hole K :: segs) (c :: s) = none := by
  rw [matchLen]
  simp [List.takeWhile_cons, h]

theorem matchLen_hole_cons {K : Char → Bool} {f : List Char} (hf : f ≠ [])
    (hfK : ∀ c ∈ f, K c = true) {s : List Char} (hs : s.takeWhile K = [])
    (segs : List Seg) :
    matchLen (.hole K :: segs) (f ++ s) = (matchLen segs s).map (· + f.length) := by
  have htake : (f ++ s).takeWhile K = f := takeWhile_append_of_all f hfK s hs
  have hne : f.isEmpty = false := by
    cases f with
    | nil => exact absurd rfl hf
    | cons a b => rfl
  have hdrop : List.drop f.length (f ++ s) = s := List.drop_left f s
  rw [matchLen]
  simp only [htake, hne, Bool.false_eq_true, if_false, hdrop]

theorem matchLen_lit_ge {l : List Char} {segs : List Seg} {s : List Char} {k : Nat}
    (h : matchLen (.lit l :: segs) s = some k) : l.length ≤ k := by
  rw [matchLen] at h
  by_cases hp : l.isPrefixOf s
  · rw [if_pos hp] at h
    cases hm : matchLen segs (s.drop l.length) with
    | none => rw [hm] at h; exact Option.noConfusion h
    | some m =>
      rw [hm] at h
      rw [show Option.map (· + l.length) (some m) = some (m + l.length) from rfl] at h
      have := Option.some.inj h
      omega
  · rw [if_neg hp] at h
    exact Option.noConfusion h

/-! ### Substitution equations and scan structure -/

theorem reSub_nil (p : List Seg) (R : List Char) : reSub p R [] = [] := by
  rw [reSub]

theorem reSub_cons_keep (p : List Seg) (R : List Char) (c : Char) (y : List Char)
    (h : matchLen p (c :: y) = none) : reSub p R (c :: y) = c :: reSub p R y := by
  rw [reSub, h]

theorem reSub_cons_keep0 (p : List Seg) (R : List Char) (c : Char) (y : List Char)
    (h : matchLen p (c :: y) = some 0) : reSub p R (c :: y) = c :: reSub p R y := by
  rw [reSub, h]

theorem reSub_cons_repl (p : List Seg) (R : List Char) (c : Char) (y : List Char)
    (n : Nat) (h : matchLen p (c :: y) = some (n + 1)) :
    reSub p R (c :: y) = R ++ reSub p R (List.drop (n + 1) (c :: y)) := by
  rw [reSub, h]

/-- Either a pass keeps the whole string, or its output starts with a copied
prefix of the input followed by the replacement block. -/
theorem reSub_shape (p : List Seg) (R : List Char) :
    ∀ y, reSub p R y = y ∨ ∃ w z, w <+: y ∧ reSub p R y = w ++ R ++ z := by
  intro y
  induction y using reSub.induct p R with
  | case1 => left; rw [reSub_nil]
  | case2 c rest n h ih =>
    right
    exact ⟨[], reSub p R (List.drop (n + 1) (c :: rest)), List.nil_prefix,
      by rw [reSub_cons_repl p R c rest n h]; rfl⟩
  | case3 c rest h ih =>
    rcases ih with h1 | ⟨w, z, hpre, heq⟩
    · left; rw [reSub_cons_keep0 p R c rest h, h1]
    · right
      exact ⟨c :: w, z, List.cons_prefix_cons.mpr ⟨rfl, hpre⟩,
        by rw [reSub_cons_keep0 p R c rest h, heq]; rfl⟩
  | case4 c rest h ih =>
    rcases ih with h1 | ⟨w, z, hpre, heq⟩
    · left; rw [reSub_cons_keep p R c rest h, h1]
    · right
      exact ⟨c :: w, z, List.cons_prefix_cons.mpr ⟨rfl, hpre⟩,
        by rw [reSub_cons_keep p R c rest h, heq]; rfl⟩

/-- A block at whose offsets the pattern never matches is copied verbatim. -/
theorem reSub_walk (p : List Seg) (R : List Char) :
    ∀ B : List Char,
      (∀ w u, B = w ++ u → u ≠ [] → ∀ t, matchLen p (u ++ t) = none) →
      ∀ z, reSub p R (B ++ z) = B ++ reSub p R z := by
  intro B
  induction B with
  | nil => intro _ z; rw [List.nil_append, List.nil_append]
  | cons c B2 ih =>
    intro hB z
    have h0 : matchLen p ((c :: B2) ++ z) = none :=
      hB [] (c :: B2) rfl (List.cons_ne_nil c B2) z
    rw [List.cons_append] at h0
    rw [List.cons_append, reSub_cons_keep p R c (B2 ++ z) h0,
      ih (fun w u hBu hu t => hB (c :: w) u (by rw [hBu]; rfl) hu t) z,
      List.cons_append]

/-- A successful match carves the string into an instance and a tail. -/
theorem matchLen_decomp :
    ∀ (p : List Seg) (s : List Char) (k : Nat), matchLen p s = some k →
      ∃ u t, s = u ++ t ∧ u.length = k ∧ InstOf p u := by
  intro p
  induction p with
  | nil =>
    intro s k h
    rw [matchLen] at h
    exact ⟨[], s, rfl, by rw [← Option.some.inj h]; rfl, InstOf.nil⟩
  | cons seg segs ih =>
    cases seg with
    | lit l =>
      intro s k h
      by_cases hp : l.isPrefixOf s
      · rw [matchLen, if_pos hp] at h
        obtain ⟨s2, hs⟩ := List.isPrefixOf_iff_prefix.mp hp
        rw [← hs, List.drop_left] at h
        cases hm : matchLen segs s2 with
        | none => rw [hm] at h; exact Option.noConfusion h
        | some k2 =>
          rw [hm] at h
          rw [show Option.map (· + l.length) (some k2) = some (k2 + l.length)
            from rfl] at h
          obtain ⟨u2, t2, hsplit, hlen, hinst⟩ := ih s2 k2 hm
          refine ⟨l ++ u2, t2, ?_, ?_, InstOf.lit l segs u2 hinst⟩
          · rw [← hs, hsplit, List.append_assoc]
          · rw [List.length_append, hlen, ← Option.some.inj h]
            omega
      · rw [matchLen_lit_none (Bool.not_eq_true _ ▸ hp)] at h
        exact Option.noConfusion h
    | hole K =>
      intro s k h
      rw [matchLen] at h
      cases hemp : (s.takeWhile K).isEmpty with
      | true =>
        simp only [hemp, if_true] at h
        exact Option.noConfusion h
      | false =>
        simp only [hemp, Bool.false_eq_true, if_false] at h
        have hsplit0 : s = s.takeWhile K ++ s.dropWhile K :=
          (List.takeWhile_append_dropWhile K s).symm
        have hdrop : s.drop (s.takeWhile K).length = s.dropWhile K := by
          have h2 := List.drop_left (s.takeWhile K) (s.dropWhile K)
          rw [List.takeWhile_append_dropWhile] at h2
          exact h2
        rw [hdrop] at h
        cases hm : matchLen segs (s.dropWhile K) with
        | none => rw [hm] at h; exact Option.noConfusion h
        | some k2 =>
          rw [hm] at h
          rw [show Option.map (· + (s.takeWhile K).length) (some k2) =
            some (k2 + (s.takeWhile K).length) from rfl] at h
          obtain ⟨u2, t2, hsplit, hlen, hinst⟩ := ih (s.dropWhile K) k2 hm
          refine ⟨s.takeWhile K ++ u2, t2, ?_, ?_,
            InstOf.hole K (s.takeWhile K) segs u2 ?_
              (fun c hc => List.mem_takeWhile_imp hc) hinst⟩
          · conv_lhs => rw [hsplit0]
            rw [hsplit, List.append_assoc]
          · rw [List.length_append, hlen, ← Option.some.inj h]
            omega
          · intro hnil
            rw [hnil] at hemp
            simp at hemp

/-! ### Suffix structure of pattern instances -/

/-- Every hole class of the pattern is bounded by `C`. -/
def HolesIn (C : Char → Bool) (p : List Seg) : Prop :=
  ∀ K, Seg.hole K ∈ p → ∀ c, K c = true → C c = true

theorem holesIn_of_cons {C : Char → Bool} {seg : Seg} {segs : List Seg}
    (h : HolesIn C (seg :: segs)) : HolesIn C segs :=
  fun K hK c hc => h K (List.mem_cons_of_mem _ hK) c hc

/-- Any nonempty suffix of a pattern instance starts inside a hole run (so
with a class character) or inside one of the pattern's literals; the literal
can be the leading one at offset 0 only when the suffix is the whole
instance. -/
theorem inst_suffix {C : Char → Bool} :
    ∀ {p x}, InstOf p x → HolesIn C p → ∀ w u, x = w ++ u → u ≠ [] →
    (∃ c t, u = c :: t ∧ C c = true) ∨
    ∃ L m, Seg.lit L ∈ p ∧ m < L.length ∧ L.drop m <+: u ∧
      (Seg.lit L ∈ p.tail ∨ 0 < m ∨ w = []) := by
  intro p x hinst
  induction hinst with
  | nil =>
    intro hH w u hx hu
    exact absurd (List.append_eq_nil.mp hx.symm).2 hu
  | lit l segs rest hrest ih =>
    intro hH w u hx hu
    rcases List.append_eq_append_iff.mp hx with ⟨a2, hw, hrest2⟩ | ⟨c2, hl, hu2⟩
    · rcases ih (holesIn_of_cons hH) a2 u hrest2 hu with hhead | ⟨L, m, hmem, hm, hpre, _⟩
      · exact Or.inl hhead
      · exact Or.inr ⟨L, m, List.mem_cons_of_mem _ hmem, hm, hpre, Or.inl hmem⟩
    · cases c2 with
      | nil =>
        rw [List.append_nil] at hl
        rcases ih (holesIn_of_cons hH) [] u (by simp [hu2]) hu with
          hhead | ⟨L, m, hmem, hm, hpre, _⟩
        · exact Or.inl hhead
        · exact Or.inr ⟨L, m, List.mem_cons_of_mem _ hmem, hm, hpre, Or.inl hmem⟩
      | cons c0 c2t =>
        refine Or.inr ⟨l, w.length, List.mem_cons_self _ _, ?_, ?_, ?_⟩
        · rw [hl, List.length_append]
          simp
        · rw [hl, List.drop_left, hu2]
          exact List.prefix_append _ _
        · cases w with
          | nil => exact Or.inr (Or.inr rfl)
          | cons w0 wt => exact Or.inr (Or.inl (by simp))
  | hole K f segs rest hf hfK hrest ih =>
    intro hH w u hx hu
    rcases List.append_eq_append_iff.mp hx with ⟨a2, hw, hrest2⟩ | ⟨c2, hf2, hu2⟩
    · rcases ih (holesIn_of_cons hH) a2 u hrest2 hu with hhead | ⟨L, m, hmem, hm, hpre, _⟩
      · exact Or.inl hhead
      · exact Or.inr ⟨L, m, List.mem_cons_of_mem _ hmem, hm, hpre, Or.inl hmem⟩
    · cases c2 with
      | nil =>
        rw [List.append_nil] at hf2
        rcases ih (holesIn_of_cons hH) [] u (by simp [hu2]) hu with
          hhead | ⟨L, m, hmem, hm, hpre, _⟩
        · exact Or.inl hhead
        · exact Or.inr ⟨L, m, List.mem_cons_of_mem _ hmem, hm, hpre, Or.inl hmem⟩
      | cons c0 c2t =>
        refine Or.inl ⟨c0, c2t ++ rest, by rw [hu2]; rfl, ?_⟩
        have hc0f : c0 ∈ f := by
          rw [hf2]
          exact List.mem_append_right _ (List.mem_cons_self _ _)
        exact hH K (List.mem_cons_self _ _) c0 (hfK c0 hc0f)

/-! ### Crossing refutations -/

/-- A pattern headed by literal `A2` never matches starting strictly inside an
instance `Rb` of another pattern (or at its start, when `ok0` supplies the
leading-overlap facts): the start position is either inside a hole run, whose
class character cannot begin `A2`, or inside a literal of the instance, whose
suffixes never overlap `A2`. -/
theorem noStart_generic {C : Char → Bool} {sp : List Seg} {Rb : List Char}
    (hR : InstOf sp Rb) (hH : HolesIn C sp)
    {A2 : List Char} {p2 : List Seg} {segs2 : List Seg}
    (hp2 : p2 = .lit A2 :: segs2) (hA2 : A2 ≠ [])
    (hhd : C (A2.headD 'x') = false)
    (ok0 : Prop)
    (hfacts : ∀ L m, Seg.lit L ∈ sp → m < L.length →
      (Seg.lit L ∈ sp.tail ∨ 0 < m ∨ ok0) →
      ¬(A2 <+: L.drop m) ∧ ¬(L.drop m <+: A2))
    (w u : List Char) (hsplit : Rb = w ++ u) (hu : u ≠ [])
    (hw : w ≠ [] ∨ ok0) :
    ∀ t, matchLen p2 (u ++ t) = none := by
  intro t
  subst hp2
  by_cases hpre : A2.isPrefixOf (u ++ t) = true
  swap
  · exact matchLen_lit_none (Bool.not_eq_true _ ▸ hpre)
  have hApre : A2 <+: u ++ t := List.isPrefixOf_iff_prefix.mp hpre
  rcases inst_suffix hR hH w u hsplit hu with ⟨c, t2, hu2, hc⟩ |
    ⟨L, m, hmem, hm, hLpre, hside⟩
  · exfalso
    cases hA2c : A2 with
    | nil => exact hA2 hA2c
    | cons a0 A2t =>
      rw [hA2c, hu2, List.cons_append] at hApre
      have : a0 = c := (List.cons_prefix_cons.mp hApre).1
      rw [hA2c, this] at hhd
      rw [show (c :: A2t).headD 'x' = c from rfl, hc] at hhd
      exact Bool.noConfusion hhd
  · exfalso
    have hside2 : Seg.lit L ∈ sp.tail ∨ 0 < m ∨ ok0 := by
      rcases hside with h | h | h
      · exact Or.inl h
      · exact Or.inr (Or.inl h)
      · rcases hw with hw2 | hok
        · exact absurd h hw2
        · exact Or.inr (Or.inr hok)
    obtain ⟨hnAL, hnLA⟩ := hfacts L m hmem hm hside2
    have hL : L.drop m <+: u ++ t := hLpre.trans (List.prefix_append u t)
    rcases List.prefix_or_prefix_of_prefix hApre hL with h | h
    · exact absurd h hnAL
    · exact absurd h hnLA

/-- A match instance with a nonempty part before a block boundary never
continues into a block headed by literal `A0`. -/
theorem noCrossIn_generic {C : Char → Bool} {p2 : List Seg}
    (hH : HolesIn C p2)
    {A0 : List Char} (hA0 : A0 ≠ []) (hhd : C (A0.headD 'x') = false)
    (hfacts : ∀ L m, Seg.lit L ∈ p2 → m < L.length →
      (Seg.lit L ∈ p2.tail ∨ 0 < m ∨ False) →
      ¬(A0 <+: L.drop m) ∧ ¬(L.drop m <+: A0))
    {w v : List Char} (hinst : InstOf p2 (w ++ v)) (hw : w ≠ []) (hv : v ≠ [])
    {t : List Char} (hpre : v <+: A0 ++ t) : False := by
  rcases inst_suffix hinst hH w v rfl hv with ⟨c, t2, hv2, hc⟩ |
    ⟨L, m, hmem, hm, hLpre, hside⟩
  · cases hA0c : A0 with
    | nil => exact hA0 hA0c
    | cons a0 A0t =>
      rw [hA0c, hv2, List.cons_append] at hpre
      have : c = a0 := (List.cons_prefix_cons.mp hpre).1
      rw [hA0c, show (a0 :: A0t).headD 'x' = a0 from rfl, ← this, hc] at hhd
      exact Bool.noConfusion hhd
  · have hside2 : Seg.lit L ∈ p2.tail ∨ 0 < m ∨ False := by
      rcases hside with h | h | h
      · exact Or.inl h
      · exact Or.inr (Or.inl h)
      · exact absurd h hw
    obtain ⟨hnAL, hnLA⟩ := hfacts L m hmem hm hside2
    have hL : L.drop m <+: A0 ++ t := hLpre.trans hpre
    rcases List.prefix_or_prefix_of_prefix (List.prefix_append A0 t) hL with h | h
    · exact absurd h hnAL
    · exact absurd h hnLA

/-- A no-match position is preserved by substitution in the tail: a new match
would lie inside the copied prefix (contradicting the old no-match) or cross
into the inserted replacement block. -/
theorem matchLen_none_pres {Kq : Char → Bool} {q : List Seg} (hwfq : PatWF Kq q)
    {p : List Seg} {R : List Char}
    (hNCI : ∀ w v t, InstOf q (w ++ v) → w ≠ [] → v ≠ [] → v <+: R ++ t → False)
    {c : Char} {y : List Char} (hnone : matchLen q (c :: y) = none) :
    matchLen q (c :: reSub p R y) = none := by
  rcases reSub_shape p R y with heq | ⟨w, z, hpre, heq⟩
  · rw [heq]; exact hnone
  · rw [heq]
    cases hml : matchLen q (c :: (w ++ R ++ z)) with
    | none => rfl
    | some k =>
      exfalso
      obtain ⟨u, t2, hsplit, hlen, hinst⟩ := matchLen_decomp q _ k hml
      have hcw : (c :: w) <+: c :: (w ++ R ++ z) :=
        List.cons_prefix_cons.mpr ⟨rfl, by
          rw [List.append_assoc]
          exact List.prefix_append w (R ++ z)⟩
      have hu : u <+: c :: (w ++ R ++ z) := by
        rw [hsplit]
        exact List.prefix_append u t2
      rcases List.prefix_or_prefix_of_prefix hu hcw with h | h
      · have h2 : u <+: c :: y := h.trans (List.cons_prefix_cons.mpr ⟨rfl, hpre⟩)
        obtain ⟨tt, htt⟩ := h2
        have h3 := matchLen_inst hwfq hinst tt
        rw [htt, hnone] at h3
        exact Option.noConfusion h3
      · obtain ⟨v, hv⟩ := h
        cases v with
        | nil =>
          rw [List.append_nil] at hv
          have h2 : u <+: c :: y := by
            rw [← hv]
            exact List.cons_prefix_cons.mpr ⟨rfl, hpre⟩
          obtain ⟨tt, htt⟩ := h2
          have h3 := matchLen_inst hwfq hinst tt
          rw [htt, hnone] at h3
          exact Option.noConfusion h3
        | cons v0 vt =>
          have hvpre : (v0 :: vt) <+: R ++ z := by
            have hEq : (c :: w) ++ ((v0 :: vt) ++ t2) = (c :: w) ++ (R ++ z) :=
              calc (c :: w) ++ ((v0 :: vt) ++ t2)
                  = ((c :: w) ++ (v0 :: vt)) ++ t2 := (List.append_assoc _ _ _).symm
                _ = u ++ t2 := by rw [hv]
                _ = c :: (w ++ R ++ z) := hsplit.symm
                _ = (c :: w) ++ (R ++ z) := by
                    rw [List.cons_append, List.append_assoc]
            exact ⟨t2, List.append_cancel_left hEq⟩
          exact hNCI (c :: w) (v0 :: vt) z (hv ▸ hinst) (List.cons_ne_nil c w)
            (List.cons_ne_nil v0 vt) hvpre

/-! ### Pass output decomposition -/

/-- Decomposition of a pass output into kept characters (at which no processed
pattern matches, relative to the actual continuation) and replacement blocks
of processed pattern/replacement pairs. -/
inductive MixL : List (List Seg × List Char) → List Char → Prop
  | nil (done) : MixL done []
  | ch (done) (c : Char) (y : List Char) :
      (∀ pr ∈ done, matchLen pr.1 (c :: y) = none) →
      MixL done y → MixL done (c :: y)
  | blk (done) (pr : List Seg × List Char) (y : List Char) : pr ∈ done →
      MixL done y → MixL done (pr.2 ++ y)

theorem mixL_nil_done : ∀ y, MixL [] y := by
  intro y
  induction y with
  | nil => exact MixL.nil []
  | cons c y ih =>
    exact MixL.ch [] c y (fun pr hpr => absurd hpr (List.not_mem_nil pr)) ih

/-- Removing a match span from a decomposed string leaves a decomposed tail:
the span, an instance with a nonempty part already consumed, can only run
through kept characters and must stop at a block boundary. -/
theorem mix_cut (p : List Seg) (done : List (List Seg × List Char))
    (hblk : ∀ pr ∈ done, pr.2 ≠ [])
    (hNCI : ∀ pr ∈ done, ∀ w v t, InstOf p (w ++ v) → w ≠ [] → v ≠ [] →
      v <+: pr.2 ++ t → False) :
    ∀ y, MixL done y → ∀ w u tl, y = u ++ tl → w ≠ [] →
      InstOf p (w ++ u) → MixL done tl := by
  intro y hmix
  induction hmix with
  | nil =>
    intro w u tl hy hw hinst
    rw [(List.append_eq_nil.mp hy.symm).2]
    exact MixL.nil done
  | ch c y hcond hmix ih =>
    intro w u tl hy hw hinst
    cases u with
    | nil =>
      rw [List.nil_append] at hy
      rw [← hy]
      exact MixL.ch done c y hcond hmix
    | cons u0 ut =>
      rw [List.cons_append] at hy
      injection hy with h1 h2
      refine ih (w ++ [c]) ut tl h2 (by simp) ?_
      rw [← List.append_cons, h1]
      exact hinst
  | blk pr y hpr hmix ih =>
    intro w u tl hy hw hinst
    rcases List.append_eq_append_iff.mp hy with ⟨a2, hu2, hy2⟩ | ⟨c2, hpr2, htl⟩
    · exfalso
      have hune : u ≠ [] := by
        intro h0
        rw [h0] at hu2
        exact hblk pr hpr (List.append_eq_nil.mp hu2.symm).1
      have hupre : u <+: pr.2 ++ a2 := ⟨[], by rw [List.append_nil, hu2]⟩
      exact hNCI pr hpr w u a2 hinst hw hune hupre
    · cases u with
      | nil =>
        rw [List.nil_append] at hpr2
        rw [htl, ← hpr2]
        exact MixL.blk done pr y hpr hmix
      | cons u0 ut =>
        exact (hNCI pr hpr w (u0 :: ut) c2 hinst hw (List.cons_ne_nil u0 ut)
          (List.IsPrefix.trans ⟨c2, hpr2.symm⟩ (List.prefix_append pr.2 c2))).elim

/-- A decomposed string is a fixed point of the pass of any of its processed
pairs: kept characters are kept again, foreign and inert blocks are walked
over, and a matching block is rewritten to itself. -/
theorem mix_fix (done : List (List Seg × List Char)) (p : List Seg) (R : List Char)
    (hmem : (p, R) ∈ done)
    (hbehave : ∀ pr ∈ done,
      (∀ w u, pr.2 = w ++ u → u ≠ [] → ∀ t, matchLen p (u ++ t) = none) ∨
      (pr.2 = R ∧ R ≠ [] ∧ ∀ t, matchLen p (R ++ t) = some R.length)) :
    ∀ y, MixL done y → reSub p R y = y := by
  intro y hmix
  induction hmix with
  | nil => exact reSub_nil p R
  | ch c y hcond hmix ih =>
    rw [reSub_cons_keep p R c y (hcond (p, R) hmem), ih]
  | blk pr y hpr hmix ih =>
    rcases hbehave pr hpr with hns | ⟨hR, hRne, hmatch⟩
    · rw [reSub_walk p R pr.2 hns y, ih]
    · rw [hR]
      cases R with
      | nil => exact absurd rfl hRne
      | cons r0 Rt =>
        have hm : matchLen p (r0 :: (Rt ++ y)) = some (Rt.length + 1) := by
          have h2 := hmatch y
          rw [List.cons_append] at h2
          exact h2
        rw [List.cons_append,
          reSub_cons_repl p (r0 :: Rt) r0 (Rt ++ y) Rt.length hm]
        have hdrop : List.drop (Rt.length + 1) (r0 :: (Rt ++ y)) = y := by
          rw [show List.drop (Rt.length + 1) (r0 :: (Rt ++ y)) =
            List.drop Rt.length (Rt ++ y) from rfl, List.drop_left]
        rw [hdrop, ih]
        rfl

/-! ### The pass lemma -/

/-- Running one more pattern/replacement pass over a decomposed string yields
a string decomposed over the extended pair list: old blocks are walked over,
kept characters stay kept (no-match positions survive the substitution), and
each replaced span becomes a new block aligned with the old decomposition. -/
theorem mix_pass (done : List (List Seg × List Char))
    (p : List Seg) (R : List Char)
    {Kp : Char → Bool} (hwfp : PatWF Kp p)
    {A : List Char} {ptl : List Seg} (hp : p = .lit A :: ptl) (hA : A ≠ [])
    (hblk : ∀ pr ∈ done, pr.2 ≠ [])
    (hwfold : ∀ pr ∈ done, ∃ K2, PatWF K2 pr.1)
    (hNS : ∀ pr ∈ done, ∀ w u, pr.2 = w ++ u → u ≠ [] → ∀ t,
      matchLen p (u ++ t) = none)
    (hNCIp : ∀ pr ∈ done, ∀ w v t, InstOf p (w ++ v) → w ≠ [] → v ≠ [] →
      v <+: pr.2 ++ t → False)
    (hNCIold : ∀ pr ∈ done, ∀ w v t, InstOf pr.1 (w ++ v) → w ≠ [] → v ≠ [] →
      v <+: R ++ t → False)
    (hNCIself : ∀ w v t, InstOf p (w ++ v) → w ≠ [] → v ≠ [] →
      v <+: R ++ t → False) :
    ∀ N y, y.length ≤ N → MixL done y →
      MixL (done ++ [(p, R)]) (reSub p R y) := by
  intro N
  induction N with
  | zero =>
    intro y hlen hmix
    rw [List.length_eq_zero.mp (Nat.le_zero.mp hlen), reSub_nil]
    exact MixL.nil _
  | succ N ih =>
    intro y hlen hmix
    cases hmix with
    | nil =>
      rw [reSub_nil]
      exact MixL.nil _
    | ch c y2 hcond hmix2 =>
      have hlen2 : y2.length ≤ N := by
        rw [List.length_cons] at hlen
        omega
      cases hml : matchLen p (c :: y2) with
      | none =>
        rw [reSub_cons_keep p R c y2 hml]
        refine MixL.ch _ c _ ?_ (ih y2 hlen2 hmix2)
        intro pr2 hpr2
        rcases List.mem_append.mp hpr2 with hold | hnew
        · obtain ⟨K2, hwf2⟩ := hwfold pr2 hold
          exact matchLen_none_pres hwf2 (hNCIold pr2 hold) (hcond pr2 hold)
        · have hpr2e : pr2 = (p, R) := by simpa using hnew
          rw [hpr2e]
          exact matchLen_none_pres hwfp hNCIself hml
      | some k =>
        cases k with
        | zero =>
          exfalso
          rw [hp] at hml
          have hge := matchLen_lit_ge hml
          exact hA (List.length_eq_zero.mp (Nat.le_zero.mp hge))
        | succ n =>
          obtain ⟨u, tl, hsplit, hulen, hinst⟩ := matchLen_decomp p _ _ hml
          cases u with
          | nil => exact absurd hulen.symm (by simp)
          | cons u0 ut =>
            rw [List.cons_append] at hsplit
            injection hsplit with hc0 hy2
            have hcut : MixL done tl :=
              mix_cut p done hblk hNCIp y2 hmix2 [c] ut tl hy2
                (List.cons_ne_nil c []) (by
                  rw [show [c] ++ ut = c :: ut from rfl, hc0]
                  exact hinst)
            have hlen3 : tl.length ≤ N := by
              have := congrArg List.length hy2
              rw [List.length_append] at this
              omega
            have hdrop : List.drop (n + 1) (c :: y2) = tl := by
              have h4 : (c :: y2) = (u0 :: ut) ++ tl := by
                rw [List.cons_append, ← hc0, ← hy2]
              rw [h4, ← hulen, List.drop_left]
            rw [reSub_cons_repl p R c y2 n hml, hdrop]
            exact MixL.blk _ (p, R) _
              (List.mem_append_right _ (List.mem_cons_self _ _))
              (ih tl hlen3 hcut)
    | blk pr y2 hpr hmix2 =>
      rw [reSub_walk p R pr.2 (hNS pr hpr) y2]
      have hlen2 : y2.length ≤ N := by
        rw [List.length_append] at hlen
        have hpos : 0 < pr.2.length := List.length_pos.mpr (hblk pr hpr)
        omega
      exact MixL.blk _ pr _ (List.mem_append_left _ hpr) (ih y2 hlen2 hmix2)

/-! ## C6: the concrete patterns and replacements of `update_readme` -/

/-- The character class `[\d,]` (ASCII digits). -/
def Ucls (c : Char) : Bool := c.isDigit || c == ','

/-- The character class `\d` (ASCII digits). -/
def Dcls (c : Char) : Bool := c.isDigit

/-- The characters that can occur in a rendered number: digits, the grouping
separator and a leading minus sign. -/
def Ccls (c : Char) : Bool := c.isDigit || c == ',' || c == '-'

def litA1 : List Char := "i've written **".data
def litM1 : List Char := "** lines of code and deleted **".data
def litB1 : List Char := "** lines.".data
def litA2 : List Char := "that's a net of **".data
def litB2 : List Char := "** lines still running somewhere in the world.".data
def litA3 : List Char := "<!-- last updated: ".data
def litB3 : List Char := " -->".data

/-- `i've written \*\*[\d,]+\*\* lines of code and deleted \*\*[\d,]+\*\* lines\.`
with the repeated character class abstracted. -/
def pat1 (K : Char → Bool) : List Seg :=
  [.lit litA1, .hole K, .lit litM1, .hole K, .lit litB1]

/-- `that's a net of \*\*[\d,]+\*\* lines still running somewhere in the world\.` -/
def pat2 (K : Char → Bool) : List Seg :=
  [.lit litA2, .hole K, .lit litB2]

/-- `<!-- last updated: \d+ -->` -/
def pat3 (K : Char → Bool) : List Seg :=
  [.lit litA3, .hole K, .lit litB3]

/-- Comma-grouping of a reversed digit list: after every three characters a
separator, as long as more digits follow (least significant digit first). -/
def groupRev : List Char → List Char
  | [] => []
  | [d1] => [d1]
  | [d1, d2] => [d1, d2]
  | [d1, d2, d3] => [d1, d2, d3]
  | d1 :: d2 :: d3 :: d4 :: rest => d1 :: d2 :: d3 :: ',' :: groupRev (d4 :: rest)

/-- Python `f"{n:,}"` for a natural number: decimal digits with a comma every
three digits counted from the right. -/
def grouped (n : Nat) : List Char := (groupRev (natChars n).reverse).reverse

/-- Python `f"{i:,}"` for an integer. -/
def intGrouped (i : Int) : List Char :=
  if i < 0 then '-' :: grouped i.natAbs else grouped i.natAbs

/-- `f"i've written **{add_str}** lines of code and deleted **{del_str}**
lines."` (its fixed parts coincide with the literals of `pat1`). -/
def repl1 (a d : Int) : List Char :=
  litA1 ++ intGrouped a ++ litM1 ++ intGrouped d ++ litB1

/-- `f"that's a net of **{net_str}** lines still running somewhere in the
world."` -/
def repl2 (n : Int) : List Char := litA2 ++ intGrouped n ++ litB2

/-- `f"<!-- last updated: {int(timestamp)} -->"` -/
def repl3 (ts : Int) : List Char := litA3 ++ intRepr ts ++ litB3

/-- The `replacements` list of `update_readme`. -/
def replacements (a d n ts : Int) : List (List Seg × List Char) :=
  [(pat1 Ucls, repl1 a d), (pat2 Ucls, repl2 n), (pat3 Dcls, repl3 ts)]

/-- `update_readme` (file I/O elided): the three `re.sub` passes applied to
the document in order. -/
def updateReadme (a d n ts : Int) (content : List Char) : List Char :=
  (replacements a d n ts).foldl (fun s pr => reSub pr.1 pr.2 s) content

/-! ### Properties of the rendered numbers -/

theorem groupRev_sub : ∀ l : List Char, ∀ c ∈ groupRev l, c ∈ l ∨ c = ',' := by
  intro l
  induction l using groupRev.induct with
  | case1 => intro c hc; cases hc
  | case2 d1 => intro c hc; exact Or.inl hc
  | case3 d1 d2 => intro c hc; exact Or.inl hc
  | case4 d1 d2 d3 => intro c hc; exact Or.inl hc
  | case5 d1 d2 d3 d4 rest ih =>
    intro c hc
    rw [groupRev, List.mem_cons, List.mem_cons, List.mem_cons,
      List.mem_cons] at hc
    rcases hc with h | h | h | h | h
    · exact Or.inl (by rw [h]; exact List.mem_cons_self _ _)
    · exact Or.inl (by
        rw [h]
        exact List.mem_cons_of_mem _ (List.mem_cons_self _ _))
    · exact Or.inl (by
        rw [h]
        exact List.mem_cons_of_mem _ (List.mem_cons_of_mem _
          (List.mem_cons_self _ _)))
    · exact Or.inr h
    · rcases ih c h with h2 | h2
      · exact Or.inl (List.mem_cons_of_mem _ (List.mem_cons_of_mem _
          (List.mem_cons_of_mem _ h2)))
      · exact Or.inr h2

theorem groupRev_ne_nil : ∀ l : List Char, l ≠ [] → groupRev l ≠ [] := by
  intro l hl
  induction l using groupRev.induct with
  | case1 => exact absurd rfl hl
  | case2 d1 => exact List.cons_ne_nil _ _
  | case3 d1 d2 => exact List.cons_ne_nil _ _
  | case4 d1 d2 d3 => exact List.cons_ne_nil _ _
  | case5 d1 d2 d3 d4 rest ih => rw [groupRev]; exact List.cons_ne_nil _ _

theorem grouped_ne_nil (n : Nat) : grouped n ≠ [] := by
  unfold grouped
  intro h
  exact groupRev_ne_nil _
    (fun h2 => natChars_ne_nil n (List.reverse_eq_nil_iff.mp h2))
    (List.reverse_eq_nil_iff.mp h)

theorem grouped_all_U (n : Nat) : ∀ c ∈ grouped n, Ucls c = true := by
  intro c hc
  unfold grouped at hc
  rw [List.mem_reverse] at hc
  rcases groupRev_sub _ c hc with h | h
  · rw [List.mem_reverse] at h
    unfold Ucls
    rw [natChars_all_digit n c h]
    rfl
  · rw [h]
    rfl

theorem ucls_ccls {c : Char} (h : Ucls c = true) : Ccls c = true := by
  unfold Ucls at h
  unfold Ccls
  rcases (Bool.or_eq_true _ _).mp h with h2 | h2 <;> simp [h2]

theorem dcls_ccls {c : Char} (h : Dcls c = true) : Ccls c = true := by
  unfold Dcls at h
  unfold Ccls
  simp [h]

theorem intGrouped_ne_nil (i : Int) : intGrouped i ≠ [] := by
  unfold intGrouped
  by_cases h : i < 0
  · rw [if_pos h]; exact List.cons_ne_nil _ _
  · rw [if_neg h]; exact grouped_ne_nil i.natAbs

theorem intGrouped_all_C (i : Int) : ∀ c ∈ intGrouped i, Ccls c = true := by
  intro c hc
  unfold intGrouped at hc
  by_cases h : i < 0
  · rw [if_pos h, List.mem_cons] at hc
    rcases hc with h2 | h2
    · rw [h2]; rfl
    · exact ucls_ccls (grouped_all_U i.natAbs c h2)
  · rw [if_neg h] at hc
    exact ucls_ccls (grouped_all_U i.natAbs c hc)

theorem intGrouped_all_U {i : Int} (h : 0 ≤ i) :
    ∀ c ∈ intGrouped i, Ucls c = true := by
  unfold intGrouped
  rw [if_neg (by omega)]
  exact grouped_all_U i.natAbs

theorem intGrouped_neg {i : Int} (h : i < 0) :
    intGrouped i = '-' :: grouped i.natAbs := by
  unfold intGrouped
  rw [if_pos h]

theorem intRepr_all_C (i : Int) : ∀ c ∈ intRepr i, Ccls c = true := by
  intro c hc
  unfold intRepr at hc
  by_cases h : i < 0
  · rw [if_pos h, List.mem_cons] at hc
    rcases hc with h2 | h2
    · rw [h2]; rfl
    · exact dcls_ccls (natChars_all_digit i.natAbs c h2)
  · rw [if_neg h] at hc
    exact dcls_ccls (natChars_all_digit i.natAbs c hc)

theorem intRepr_all_D {i : Int} (h : 0 ≤ i) :
    ∀ c ∈ intRepr i, Dcls c = true := by
  unfold intRepr
  rw [if_neg (by omega)]
  exact natChars_all_digit i.natAbs

theorem intRepr_neg {i : Int} (h : i < 0) :
    intRepr i = '-' :: natChars i.natAbs := by
  unfold intRepr
  rw [if_pos h]

/-! ### Literal overlap facts -/

/-- No suffix of `L` starting at an offset `≥ m0` overlaps `A` in either
prefix direction. -/
def noOv (L A : List Char) (m0 : Nat) : Bool :=
  (List.range L.length).all fun m =>
    decide (m < m0) || (!(A.isPrefixOf (L.drop m)) && !((L.drop m).isPrefixOf A))

theorem noOv_spec {L A : List Char} {m0 : Nat} (h : noOv L A m0 = true) :
    ∀ m, m < L.length → m0 ≤ m → ¬(A <+: L.drop m) ∧ ¬(L.drop m <+: A) := by
  intro m hm hm0
  unfold noOv at h
  rw [List.all_eq_true] at h
  have h2 := h m (List.mem_range.mpr hm)
  rcases (Bool.or_eq_true _ _).mp h2 with h3 | h3
  · exact absurd (of_decide_eq_true h3) (Nat.not_lt.mpr hm0)
  · obtain ⟨h4, h5⟩ := (Bool.and_eq_true _ _).mp h3
    rw [Bool.not_eq_true'] at h4 h5
    constructor
    · intro hc
      exact Bool.noConfusion (h4 ▸ List.isPrefixOf_iff_prefix.mpr hc)
    · intro hc
      exact Bool.noConfusion (h5 ▸ List.isPrefixOf_iff_prefix.mpr hc)

theorem lit_mem_pat1 {K : Char → Bool} {L : List Char} (h : Seg.lit L ∈ pat1 K) :
    L = litA1 ∨ L = litM1 ∨ L = litB1 := by
  simp [pat1] at h
  exact h

theorem lit_mem_pat2 {K : Char → Bool} {L : List Char} (h : Seg.lit L ∈ pat2 K) :
    L = litA2 ∨ L = litB2 := by
  simp [pat2] at h
  exact h

theorem lit_mem_pat3 {K : Char → Bool} {L : List Char} (h : Seg.lit L ∈ pat3 K) :
    L = litA3 ∨ L = litB3 := by
  simp [pat3] at h
  exact h

theorem facts_p1_A1 (K : Char → Bool) :
    ∀ L m, Seg.lit L ∈ pat1 K → m < L.length →
      (Seg.lit L ∈ (pat1 K).tail ∨ 0 < m ∨ False) →
      ¬(litA1 <+: L.drop m) ∧ ¬(L.drop m <+: litA1) := by
  intro L m hmem hm hside
  rcases lit_mem_pat1 hmem with h | h | h <;> subst h
  · have hm0 : 0 < m := by
      rcases hside with h2 | h2 | h2
      · exfalso
        simp [pat1] at h2
        rcases h2 with h3 | h3
        · exact (by decide : litA1 ≠ litM1) h3
        · exact (by decide : litA1 ≠ litB1) h3
      · exact h2
      · exact h2.elim
    exact @noOv_spec litA1 litA1 1 (by decide) m hm (by omega)
  · exact noOv_spec (by decide) m hm (Nat.zero_le m)
  · exact noOv_spec (by decide) m hm (Nat.zero_le m)

theorem facts_p1_A2 (K : Char → Bool) (X : Prop) :
    ∀ L m, Seg.lit L ∈ pat1 K → m < L.length →
      (Seg.lit L ∈ (pat1 K).tail ∨ 0 < m ∨ X) →
      ¬(litA2 <+: L.drop m) ∧ ¬(L.drop m <+: litA2) := by
  intro L m hmem hm _
  rcases lit_mem_pat1 hmem with h | h | h <;> subst h
  · exact noOv_spec (by decide) m hm (Nat.zero_le m)
  · exact noOv_spec (by decide) m hm (Nat.zero_le m)
  · exact noOv_spec (by decide) m hm (Nat.zero_le m)

theorem facts_p1_A3 (K : Char → Bool) (X : Prop) :
    ∀ L m, Seg.lit L ∈ pat1 K → m < L.length →
      (Seg.lit L ∈ (pat1 K).tail ∨ 0 < m ∨ X) →
      ¬(litA3 <+: L.drop m) ∧ ¬(L.drop m <+: litA3) := by
  intro L m hmem hm _
  rcases lit_mem_pat1 hmem with h | h | h <;> subst h
  · exact noOv_spec (by decide) m hm (Nat.zero_le m)
  · exact noOv_spec (by decide) m hm (Nat.zero_le m)
  · exact noOv_spec (by decide) m hm (Nat.zero_le m)

theorem facts_p2_A1 (K : Char → Bool) (X : Prop) :
    ∀ L m, Seg.lit L ∈ pat2 K → m < L.length →
      (Seg.lit L ∈ (pat2 K).tail ∨ 0 < m ∨ X) →
      ¬(litA1 <+: L.drop m) ∧ ¬(L.drop m <+: litA1) := by
  intro L m hmem hm _
  rcases lit_mem_pat2 hmem with h | h <;> subst h
  · exact noOv_spec (by decide) m hm (Nat.zero_le m)
  · exact noOv_spec (by decide) m hm (Nat.zero_le m)

theorem facts_p2_A2 (K : Char → Bool) :
    ∀ L m, Seg.lit L ∈ pat2 K → m < L.length →
      (Seg.lit L ∈ (pat2 K).tail ∨ 0 < m ∨ False) →
      ¬(litA2 <+: L.drop m) ∧ ¬(L.drop m <+: litA2) := by
  intro L m hmem hm hside
  rcases lit_mem_pat2 hmem with h | h <;> subst h
  · have hm0 : 0 < m := by
      rcases hside with h2 | h2 | h2
      · exfalso
        simp [pat2] at h2
        exact (by decide : litA2 ≠ litB2) h2
      · exact h2
      · exact h2.elim
    exact @noOv_spec litA2 litA2 1 (by decide) m hm (by omega)
  · exact noOv_spec (by decide) m hm (Nat.zero_le m)

theorem facts_p2_A3 (K : Char → Bool) (X : Prop) :
    ∀ L m, Seg.lit L ∈ pat2 K → m < L.length →
      (Seg.lit L ∈ (pat2 K).tail ∨ 0 < m ∨ X) →
      ¬(litA3 <+: L.drop m) ∧ ¬(L.drop m <+: litA3) := by
  intro L m hmem hm _
  rcases lit_mem_pat2 hmem with h | h <;> subst h
  · exact noOv_spec (by decide) m hm (Nat.zero_le m)
  · exact noOv_spec (by decide) m hm (Nat.zero_le m)

theorem facts_p3_A1 (K : Char → Bool) (X : Prop) :
    ∀ L m, Seg.lit L ∈ pat3 K → m < L.length →
      (Seg.lit L ∈ (pat3 K).tail ∨ 0 < m ∨ X) →
      ¬(litA1 <+: L.drop m) ∧ ¬(L.drop m <+: litA1) := by
  intro L m hmem hm _
  rcases lit_mem_pat3 hmem with h | h <;> subst h
  · exact noOv_spec (by decide) m hm (Nat.zero_le m)
  · exact noOv_spec (by decide) m hm (Nat.zero_le m)

theorem facts_p3_A2 (K : Char → Bool) (X : Prop) :
    ∀ L m, Seg.lit L ∈ pat3 K → m < L.length →
      (Seg.lit L ∈ (pat3 K).tail ∨ 0 < m ∨ X) →
      ¬(litA2 <+: L.drop m) ∧ ¬(L.drop m <+: litA2) := by
  intro L m hmem hm _
  rcases lit_mem_pat3 hmem with h | h <;> subst h
  · exact noOv_spec (by decide) m hm (Nat.zero_le m)
  · exact noOv_spec (by decide) m hm (Nat.zero_le m)

theorem facts_p3_A3 (K : Char → Bool) :
    ∀ L m, Seg.lit L ∈ pat3 K → m < L.length →
      (Seg.lit L ∈ (pat3 K).tail ∨ 0 < m ∨ False) →
      ¬(litA3 <+: L.drop m) ∧ ¬(L.drop m <+: litA3) := by
  intro L m hmem hm hside
  rcases lit_mem_pat3 hmem with h | h <;> subst h
  · have hm0 : 0 < m := by
      rcases hside with h2 | h2 | h2
      · exfalso
        simp [pat3] at h2
        exact (by decide : litA3 ≠ litB3) h2
      · exact h2
      · exact h2.elim
    exact @noOv_spec litA3 litA3 1 (by decide) m hm (by omega)
  · exact noOv_spec (by decide) m hm (Nat.zero_le m)

/-! ### Well-formedness, hole bounds, instances -/

theorem patWF1 : PatWF Ucls (pat1 Ucls) := by
  unfold pat1
  exact ⟨by decide, by decide, rfl, ⟨litM1, _, rfl⟩, by decide, by decide,
    rfl, ⟨litB1, _, rfl⟩, by decide, by decide, trivial⟩

theorem patWF2 : PatWF Ucls (pat2 Ucls) := by
  unfold pat2
  exact ⟨by decide, by decide, rfl, ⟨litB2, _, rfl⟩, by decide, by decide,
    trivial⟩

theorem patWF3 : PatWF Dcls (pat3 Dcls) := by
  unfold pat3
  exact ⟨by decide, by decide, rfl, ⟨litB3, _, rfl⟩, by decide, by decide,
    trivial⟩

theorem holesIn_pat1 {K C : Char → Bool} (h : ∀ c, K c = true → C c = true) :
    HolesIn C (pat1 K) := by
  intro K2 hK2 c hc
  simp [pat1] at hK2
  exact h c (hK2 ▸ hc)

theorem holesIn_pat2 {K C : Char → Bool} (h : ∀ c, K c = true → C c = true) :
    HolesIn C (pat2 K) := by
  intro K2 hK2 c hc
  simp [pat2] at hK2
  exact h c (hK2 ▸ hc)

theorem holesIn_pat3 {K C : Char → Bool} (h : ∀ c, K c = true → C c = true) :
    HolesIn C (pat3 K) := by
  intro K2 hK2 c hc
  simp [pat3] at hK2
  exact h c (hK2 ▸ hc)

theorem instOf_pat1 {K : Char → Bool} {g1 g2 : List Char} (h1 : g1 ≠ [])
    (h1K : ∀ c ∈ g1, K c = true) (h2 : g2 ≠ []) (h2K : ∀ c ∈ g2, K c = true) :
    InstOf (pat1 K) (litA1 ++ (g1 ++ (litM1 ++ (g2 ++ litB1)))) := by
  unfold pat1
  refine InstOf.lit _ _ _ (InstOf.hole _ _ _ _ h1 h1K (InstOf.lit _ _ _
    (InstOf.hole _ _ _ _ h2 h2K ?_)))
  have h5 := InstOf.lit litB1 [] [] InstOf.nil
  rwa [List.append_nil] at h5

theorem instOf_pat2 {K : Char → Bool} {g : List Char} (h1 : g ≠ [])
    (h1K : ∀ c ∈ g, K c = true) :
    InstOf (pat2 K) (litA2 ++ (g ++ litB2)) := by
  unfold pat2
  refine InstOf.lit _ _ _ (InstOf.hole _ _ _ _ h1 h1K ?_)
  have h5 := InstOf.lit litB2 [] [] InstOf.nil
  rwa [List.append_nil] at h5

theorem instOf_pat3 {K : Char → Bool} {g : List Char} (h1 : g ≠ [])
    (h1K : ∀ c ∈ g, K c = true) :
    InstOf (pat3 K) (litA3 ++ (g ++ litB3)) := by
  unfold pat3
  refine InstOf.lit _ _ _ (InstOf.hole _ _ _ _ h1 h1K ?_)
  have h5 := InstOf.lit litB3 [] [] InstOf.nil
  rwa [List.append_nil] at h5

theorem repl1_assoc (a d : Int) :
    repl1 a d = litA1 ++ (intGrouped a ++ (litM1 ++ (intGrouped d ++ litB1))) := by
  unfold repl1
  simp [List.append_assoc]

theorem repl2_assoc (n : Int) :
    repl2 n = litA2 ++ (intGrouped n ++ litB2) := by
  unfold repl2
  simp [List.append_assoc]

theorem repl3_assoc (ts : Int) :
    repl3 ts = litA3 ++ (intRepr ts ++ litB3) := by
  unfold repl3
  simp [List.append_assoc]

theorem repl1_ne_nil (a d : Int) : repl1 a d ≠ [] := by
  rw [repl1_assoc]
  intro h
  exact (by decide : litA1 ≠ []) (List.append_eq_nil.mp h).1

theorem repl2_ne_nil (n : Int) : repl2 n ≠ [] := by
  rw [repl2_assoc]
  intro h
  exact (by decide : litA2 ≠ []) (List.append_eq_nil.mp h).1

theorem repl3_ne_nil (ts : Int) : repl3 ts ≠ [] := by
  rw [repl3_assoc]
  intro h
  exact (by decide : litA3 ≠ []) (List.append_eq_nil.mp h).1

theorem instOf_repl1_C (a d : Int) : InstOf (pat1 Ccls) (repl1 a d) := by
  rw [repl1_assoc]
  exact instOf_pat1 (intGrouped_ne_nil a) (fun c hc => intGrouped_all_C a c hc)
    (intGrouped_ne_nil d) (fun c hc => intGrouped_all_C d c hc)

theorem instOf_repl2_C (n : Int) : InstOf (pat2 Ccls) (repl2 n) := by
  rw [repl2_assoc]
  exact instOf_pat2 (intGrouped_ne_nil n) (fun c hc => intGrouped_all_C n c hc)

theorem instOf_repl3_C (ts : Int) : InstOf (pat3 Ccls) (repl3 ts) := by
  rw [repl3_assoc]
  exact instOf_pat3 (intRepr_ne_nil ts) (fun c hc => intRepr_all_C ts c hc)

theorem instOf_repl1_U {a d : Int} (ha : 0 ≤ a) (hd : 0 ≤ d) :
    InstOf (pat1 Ucls) (repl1 a d) := by
  rw [repl1_assoc]
  exact instOf_pat1 (intGrouped_ne_nil a) (intGrouped_all_U ha)
    (intGrouped_ne_nil d) (intGrouped_all_U hd)

theorem instOf_repl2_U {n : Int} (hn : 0 ≤ n) :
    InstOf (pat2 Ucls) (repl2 n) := by
  rw [repl2_assoc]
  exact instOf_pat2 (intGrouped_ne_nil n) (intGrouped_all_U hn)

theorem instOf_repl3_D {ts : Int} (hts : 0 ≤ ts) :
    InstOf (pat3 Dcls) (repl3 ts) := by
  rw [repl3_assoc]
  exact instOf_pat3 (intRepr_ne_nil ts) (intRepr_all_D hts)

/-! ### Inert replacements: a negative value breaks the self-match -/

theorem inert1a {a : Int} (ha : a < 0) (d : Int) :
    ∀ t, matchLen (pat1 Ucls) (repl1 a d ++ t) = none := by
  intro t
  rw [repl1_assoc, intGrouped_neg ha]
  unfold pat1
  rw [List.append_assoc, matchLen_lit_cons, List.append_assoc,
    List.cons_append, matchLen_hole_none (by decide : Ucls '-' = false)]
  rfl

theorem inert1b {a d : Int} (ha : 0 ≤ a) (hd : d < 0) :
    ∀ t, matchLen (pat1 Ucls) (repl1 a d ++ t) = none := by
  intro t
  rw [repl1_assoc, intGrouped_neg hd]
  unfold pat1
  rw [List.append_assoc, matchLen_lit_cons, List.append_assoc,
    matchLen_hole_cons (intGrouped_ne_nil a) (intGrouped_all_U ha)
      (by
        rw [List.append_assoc]
        exact takeWhile_nil_of_head litM1 (by decide) (by decide) _),
    List.append_assoc, matchLen_lit_cons, List.append_assoc, List.cons_append,
    matchLen_hole_none (by decide : Ucls '-' = false)]
  rfl

theorem inert2 {n : Int} (hn : n < 0) :
    ∀ t, matchLen (pat2 Ucls) (repl2 n ++ t) = none := by
  intro t
  rw [repl2_assoc, intGrouped_neg hn]
  unfold pat2
  rw [List.append_assoc, matchLen_lit_cons, List.append_assoc,
    List.cons_append, matchLen_hole_none (by decide : Ucls '-' = false)]
  rfl

theorem inert3 {ts : Int} (hts : ts < 0) :
    ∀ t, matchLen (pat3 Dcls) (repl3 ts ++ t) = none := by
  intro t
  rw [repl3_assoc, intRepr_neg hts]
  unfold pat3
  rw [List.append_assoc, matchLen_lit_cons, List.append_assoc,
    List.cons_append, matchLen_hole_none (by decide : Dcls '-' = false)]
  rfl

/-! ### No pattern starts inside a foreign block -/

theorem ns_p2_r1 (a d : Int) : ∀ w u, repl1 a d = w ++ u → u ≠ [] → ∀ t,
    matchLen (pat2 Ucls) (u ++ t) = none := by
  intro w u hsplit hu t
  exact noStart_generic (instOf_repl1_C a d) (holesIn_pat1 (fun c h => h))
    rfl (by decide) (by decide) True (facts_p1_A2 Ccls True)
    w u hsplit hu (Or.inr trivial) t

theorem ns_p3_r1 (a d : Int) : ∀ w u, repl1 a d = w ++ u → u ≠ [] → ∀ t,
    matchLen (pat3 Dcls) (u ++ t) = none := by
  intro w u hsplit hu t
  exact noStart_generic (instOf_repl1_C a d) (holesIn_pat1 (fun c h => h))
    rfl (by decide) (by decide) True (facts_p1_A3 Ccls True)
    w u hsplit hu (Or.inr trivial) t

theorem ns_p1_r2 (n : Int) : ∀ w u, repl2 n = w ++ u → u ≠ [] → ∀ t,
    matchLen (pat1 Ucls) (u ++ t) = none := by
  intro w u hsplit hu t
  exact noStart_generic (instOf_repl2_C n) (holesIn_pat2 (fun c h => h))
    rfl (by decide) (by decide) True (facts_p2_A1 Ccls True)
    w u hsplit hu (Or.inr trivial) t

theorem ns_p3_r2 (n : Int) : ∀ w u, repl2 n = w ++ u → u ≠ [] → ∀ t,
    matchLen (pat3 Dcls) (u ++ t) = none := by
  intro w u hsplit hu t
  exact noStart_generic (instOf_repl2_C n) (holesIn_pat2 (fun c h => h))
    rfl (by decide) (by decide) True (facts_p2_A3 Ccls True)
    w u hsplit hu (Or.inr trivial) t

theorem ns_p1_r3 (ts : Int) : ∀ w u, repl3 ts = w ++ u → u ≠ [] → ∀ t,
    matchLen (pat1 Ucls) (u ++ t) = none := by
  intro w u hsplit hu t
  exact noStart_generic (instOf_repl3_C ts) (holesIn_pat3 (fun c h => h))
    rfl (by decide) (by decide) True (facts_p3_A1 Ccls True)
    w u hsplit hu (Or.inr trivial) t

theorem ns_p2_r3 (ts : Int) : ∀ w u, repl3 ts = w ++ u → u ≠ [] → ∀ t,
    matchLen (pat2 Ucls) (u ++ t) = none := by
  intro w u hsplit hu t
  exact noStart_generic (instOf_repl3_C ts) (holesIn_pat3 (fun c h => h))
    rfl (by decide) (by decide) True (facts_p3_A2 Ccls True)
    w u hsplit hu (Or.inr trivial) t

/-! ### No match crosses into a block -/

theorem nci_p1_r1 (a d : Int) : ∀ w v t, InstOf (pat1 Ucls) (w ++ v) →
    w ≠ [] → v ≠ [] → v <+: repl1 a d ++ t → False := by
  intro w v t hinst hw hv hpre
  rw [repl1_assoc, List.append_assoc] at hpre
  exact noCrossIn_generic (holesIn_pat1 (fun c h => ucls_ccls h)) (by decide)
    (by decide) (facts_p1_A1 Ucls) hinst hw hv hpre

theorem nci_p2_r1 (a d : Int) : ∀ w v t, InstOf (pat2 Ucls) (w ++ v) →
    w ≠ [] → v ≠ [] → v <+: repl1 a d ++ t → False := by
  intro w v t hinst hw hv hpre
  rw [repl1_assoc, List.append_assoc] at hpre
  exact noCrossIn_generic (holesIn_pat2 (fun c h => ucls_ccls h)) (by decide)
    (by decide) (facts_p2_A1 Ucls False) hinst hw hv hpre

theorem nci_p3_r1 (a d : Int) : ∀ w v t, InstOf (pat3 Dcls) (w ++ v) →
    w ≠ [] → v ≠ [] → v <+: repl1 a d ++ t → False := by
  intro w v t hinst hw hv hpre
  rw [repl1_assoc, List.append_assoc] at hpre
  exact noCrossIn_generic (holesIn_pat3 (fun c h => dcls_ccls h)) (by decide)
    (by decide) (facts_p3_A1 Dcls False) hinst hw hv hpre

theorem nci_p1_r2 (n : Int) : ∀ w v t, InstOf (pat1 Ucls) (w ++ v) →
    w ≠ [] → v ≠ [] → v <+: repl2 n ++ t → False := by
  intro w v t hinst hw hv hpre
  rw [repl2_assoc, List.append_assoc] at hpre
  exact noCrossIn_generic (holesIn_pat1 (fun c h => ucls_ccls h)) (by decide)
    (by decide) (facts_p1_A2 Ucls False) hinst hw hv hpre

theorem nci_p2_r2 (n : Int) : ∀ w v t, InstOf (pat2 Ucls) (w ++ v) →
    w ≠ [] → v ≠ [] → v <+: repl2 n ++ t → False := by
  intro w v t hinst hw hv hpre
  rw [repl2_assoc, List.append_assoc] at hpre
  exact noCrossIn_generic (holesIn_pat2 (fun c h => ucls_ccls h)) (by decide)
    (by decide) (facts_p2_A2 Ucls) hinst hw hv hpre

theorem nci_p3_r2 (n : Int) : ∀ w v t, InstOf (pat3 Dcls) (w ++ v) →
    w ≠ [] → v ≠ [] → v <+: repl2 n ++ t → False := by
  intro w v t hinst hw hv hpre
  rw [repl2_assoc, List.append_assoc] at hpre
  exact noCrossIn_generic (holesIn_pat3 (fun c h => dcls_ccls h)) (by decide)
    (by decide) (facts_p3_A2 Dcls False) hinst hw hv hpre

theorem nci_p1_r3 (ts : Int) : ∀ w v t, InstOf (pat1 Ucls) (w ++ v) →
    w ≠ [] → v ≠ [] → v <+: repl3 ts ++ t → False := by
  intro w v t hinst hw hv hpre
  rw [repl3_assoc, List.append_assoc] at hpre
  exact noCrossIn_generic (holesIn_pat1 (fun c h => ucls_ccls h)) (by decide)
    (by decide) (facts_p1_A3 Ucls False) hinst hw hv hpre

theorem nci_p2_r3 (ts : Int) : ∀ w v t, InstOf (pat2 Ucls) (w ++ v) →
    w ≠ [] → v ≠ [] → v <+: repl3 ts ++ t → False := by
  intro w v t hinst hw hv hpre
  rw [repl3_assoc, List.append_assoc] at hpre
  exact noCrossIn_generic (holesIn_pat2 (fun c h => ucls_ccls h)) (by decide)
    (by decide) (facts_p2_A3 Ucls False) hinst hw hv hpre

theorem nci_p3_r3 (ts : Int) : ∀ w v t, InstOf (pat3 Dcls) (w ++ v) →
    w ≠ [] → v ≠ [] → v <+: repl3 ts ++ t → False := by
  intro w v t hinst hw hv hpre
  rw [repl3_assoc, List.append_assoc] at hpre
  exact noCrossIn_generic (holesIn_pat3 (fun c h => dcls_ccls h)) (by decide)
    (by decide) (facts_p3_A3 Dcls) hinst hw hv hpre

/-! ### Behaviour of each pattern on its own replacement -/

theorem behave1 (a d : Int) :
    (∀ w u, repl1 a d = w ++ u → u ≠ [] → ∀ t,
      matchLen (pat1 Ucls) (u ++ t) = none) ∨
    (repl1 a d = repl1 a d ∧ repl1 a d ≠ [] ∧ ∀ t,
      matchLen (pat1 Ucls) (repl1 a d ++ t) = some (repl1 a d).length) := by
  by_cases ha : 0 ≤ a
  · by_cases hd : 0 ≤ d
    · right
      exact ⟨rfl, repl1_ne_nil a d,
        fun t => matchLen_inst patWF1 (instOf_repl1_U ha hd) t⟩
    · left
      intro w u hsplit hu t
      cases w with
      | nil =>
        rw [List.nil_append] at hsplit
        rw [← hsplit]
        exact inert1b ha (by omega) t
      | cons w0 wt =>
        exact noStart_generic (instOf_repl1_C a d) (holesIn_pat1 (fun c h => h))
          rfl (by decide) (by decide) False (facts_p1_A1 Ccls)
          (w0 :: wt) u hsplit hu (Or.inl (List.cons_ne_nil w0 wt)) t
  · left
    intro w u hsplit hu t
    cases w with
    | nil =>
      rw [List.nil_append] at hsplit
      rw [← hsplit]
      exact inert1a (by omega) d t
    | cons w0 wt =>
      exact noStart_generic (instOf_repl1_C a d) (holesIn_pat1 (fun c h => h))
        rfl (by decide) (by decide) False (facts_p1_A1 Ccls)
        (w0 :: wt) u hsplit hu (Or.inl (List.cons_ne_nil w0 wt)) t

theorem behave2 (n : Int) :
    (∀ w u, repl2 n = w ++ u → u ≠ [] → ∀ t,
      matchLen (pat2 Ucls) (u ++ t) = none) ∨
    (repl2 n = repl2 n ∧ repl2 n ≠ [] ∧ ∀ t,
      matchLen (pat2 Ucls) (repl2 n ++ t) = some (repl2 n).length) := by
  by_cases hn : 0 ≤ n
  · right
    exact ⟨rfl, repl2_ne_nil n,
      fun t => matchLen_inst patWF2 (instOf_repl2_U hn) t⟩
  · left
    intro w u hsplit hu t
    cases w with
    | nil =>
      rw [List.nil_append] at hsplit
      rw [← hsplit]
      exact inert2 (by omega) t
    | cons w0 wt =>
      exact noStart_generic (instOf_repl2_C n) (holesIn_pat2 (fun c h => h))
        rfl (by decide) (by decide) False (facts_p2_A2 Ccls)
        (w0 :: wt) u hsplit hu (Or.inl (List.cons_ne_nil w0 wt)) t

theorem behave3 (ts : Int) :
    (∀ w u, repl3 ts = w ++ u → u ≠ [] → ∀ t,
      matchLen (pat3 Dcls) (u ++ t) = none) ∨
    (repl3 ts = repl3 ts ∧ repl3 ts ≠ [] ∧ ∀ t,
      matchLen (pat3 Dcls) (repl3 ts ++ t) = some (repl3 ts).length) := by
  by_cases hts : 0 ≤ ts
  · right
    exact ⟨rfl, repl3_ne_nil ts,
      fun t => matchLen_inst patWF3 (instOf_repl3_D hts) t⟩
  · left
    intro w u hsplit hu t
    cases w with
    | nil =>
      rw [List.nil_append] at hsplit
      rw [← hsplit]
      exact inert3 (by omega) t
    | cons w0 wt =>
      exact noStart_generic (instOf_repl3_C ts) (holesIn_pat3 (fun c h => h))
        rfl (by decide) (by decide) False (facts_p3_A3 Ccls)
        (w0 :: wt) u hsplit hu (Or.inl (List.cons_ne_nil w0 wt)) t

/-! ### Assembly -/

theorem updateReadme_eq (a d n ts : Int) (x : List Char) :
    updateReadme a d n ts x =
      reSub (pat3 Dcls) (repl3 ts)
        (reSub (pat2 Ucls) (repl2 n) (reSub (pat1 Ucls) (repl1 a d) x)) := rfl

theorem mix_all (a d n ts : Int) (x : List Char) :
    MixL (replacements a d n ts) (updateReadme a d n ts x) := by
  have m1 : MixL [(pat1 Ucls, repl1 a d)] (reSub (pat1 Ucls) (repl1 a d) x) :=
    mix_pass [] (pat1 Ucls) (repl1 a d) patWF1 rfl (by decide)
      (fun pr hpr => absurd hpr (List.not_mem_nil pr))
      (fun pr hpr => absurd hpr (List.not_mem_nil pr))
      (fun pr hpr => absurd hpr (List.not_mem_nil pr))
      (fun pr hpr => absurd hpr (List.not_mem_nil pr))
      (fun pr hpr => absurd hpr (List.not_mem_nil pr))
      (nci_p1_r1 a d)
      x.length x (Nat.le_refl _) (mixL_nil_done x)
  have m2 : MixL [(pat1 Ucls, repl1 a d), (pat2 Ucls, repl2 n)]
      (reSub (pat2 Ucls) (repl2 n) (reSub (pat1 Ucls) (repl1 a d) x)) :=
    mix_pass [(pat1 Ucls, repl1 a d)] (pat2 Ucls) (repl2 n) patWF2 rfl
      (by decide)
      (fun pr hpr => by
        rw [List.mem_singleton] at hpr
        rw [hpr]
        exact repl1_ne_nil a d)
      (fun pr hpr => by
        rw [List.mem_singleton] at hpr
        rw [hpr]
        exact ⟨Ucls, patWF1⟩)
      (fun pr hpr => by
        rw [List.mem_singleton] at hpr
        rw [hpr]
        exact ns_p2_r1 a d)
      (fun pr hpr => by
        rw [List.mem_singleton] at hpr
        rw [hpr]
        exact nci_p2_r1 a d)
      (fun pr hpr => by
        rw [List.mem_singleton] at hpr
        rw [hpr]
        exact nci_p1_r2 n)
      (nci_p2_r2 n)
      _ _ (Nat.le_refl _) m1
  have m3 : MixL [(pat1 Ucls, repl1 a d), (pat2 Ucls, repl2 n),
      (pat3 Dcls, repl3 ts)]
      (reSub (pat3 Dcls) (repl3 ts) (reSub (pat2 Ucls) (repl2 n)
        (reSub (pat1 Ucls) (repl1 a d) x))) :=
    mix_pass [(pat1 Ucls, repl1 a d), (pat2 Ucls, repl2 n)] (pat3 Dcls)
      (repl3 ts) patWF3 rfl (by decide)
      (fun pr hpr => by
        rw [List.mem_cons, List.mem_singleton] at hpr
        rcases hpr with h | h <;> rw [h]
        · exact repl1_ne_nil a d
        · exact repl2_ne_nil n)
      (fun pr hpr => by
        rw [List.mem_cons, List.mem_singleton] at hpr
        rcases hpr with h | h <;> rw [h]
        · exact ⟨Ucls, patWF1⟩
        · exact ⟨Ucls, patWF2⟩)
      (fun pr hpr => by
        rw [List.mem_cons, List.mem_singleton] at hpr
        rcases hpr with h | h <;> rw [h]
        · exact ns_p3_r1 a d
        · exact ns_p3_r2 n)
      (fun pr hpr => by
        rw [List.mem_cons, List.mem_singleton] at hpr
        rcases hpr with h | h <;> rw [h]
        · exact nci_p3_r1 a d
        · exact nci_p3_r2 n)
      (fun pr hpr => by
        rw [List.mem_cons, List.mem_singleton] at hpr
        rcases hpr with h | h <;> rw [h]
        · exact nci_p1_r3 ts
        · exact nci_p2_r3 ts)
      (nci_p3_r3 ts)
      _ _ (Nat.le_refl _) m2
  rw [updateReadme_eq, replacements]
  exact m3

/-- C6: the document patcher is idempotent: applying the three regex
substitutions of `update_readme` once and then again with the same
(additions, deletions, net, timestamp) values produces the identical
document. Each value span of the once-patched text either again matches its
own pattern and is rewritten to itself, or (when a rendered value carries a
minus sign, which the character classes exclude) matches nothing; no match of
any of the three patterns can begin inside or cross into an inserted
replacement. -/
theorem c6_patcher_idempotent (a d n ts : Int) (content : List Char) :
    updateReadme a d n ts (updateReadme a d n ts content) =
      updateReadme a d n ts content := by
  have hmix := mix_all a d n ts content
  have hb1 : ∀ pr ∈ replacements a d n ts,
      (∀ w u, pr.2 = w ++ u → u ≠ [] → ∀ t,
        matchLen (pat1 Ucls) (u ++ t) = none) ∨
      (pr.2 = repl1 a d ∧ repl1 a d ≠ [] ∧ ∀ t,
        matchLen (pat1 Ucls) (repl1 a d ++ t) = some (repl1 a d).length) := by
    intro pr hpr
    rw [replacements, List.mem_cons, List.mem_cons, List.mem_singleton] at hpr
    rcases hpr with h | h | h <;> rw [h]
    · exact behave1 a d
    · exact Or.inl (ns_p1_r2 n)
    · exact Or.inl (ns_p1_r3 ts)
  have hb2 : ∀ pr ∈ replacements a d n ts,
      (∀ w u, pr.2 = w ++ u → u ≠ [] → ∀ t,
        matchLen (pat2 Ucls) (u ++ t) = none) ∨
      (pr.2 = repl2 n ∧ repl2 n ≠ [] ∧ ∀ t,
        matchLen (pat2 Ucls) (repl2 n ++ t) = some (repl2 n).length) := by
    intro pr hpr
    rw [replacements, List.mem_cons, List.mem_cons, List.mem_singleton] at hpr
    rcases hpr with h | h | h <;> rw [h]
    · exact Or.inl (ns_p2_r1 a d)
    · exact behave2 n
    · exact Or.inl (ns_p2_r3 ts)
  have hb3 : ∀ pr ∈ replacements a d n ts,
      (∀ w u, pr.2 = w ++ u → u ≠ [] → ∀ t,
        matchLen (pat3 Dcls) (u ++ t) = none) ∨
      (pr.2 = repl3 ts ∧ repl3 ts ≠ [] ∧ ∀ t,
        matchLen (pat3 Dcls) (repl3 ts ++ t) = some (repl3 ts).length) := by
    intro pr hpr
    rw [replacements, List.mem_cons, List.mem_cons, List.mem_singleton] at hpr
    rcases hpr with h | h | h <;> rw [h]
    · exact Or.inl (ns_p3_r1 a d)
    · exact Or.inl (ns_p3_r2 n)
    · exact behave3 ts
  have hmem1 : (pat1 Ucls, repl1 a d) ∈ replacements a d n ts := by
    rw [replacements]
    exact List.mem_cons_self _ _
  have hmem2 : (pat2 Ucls, repl2 n) ∈ replacements a d n ts := by
    rw [replacements]
    exact List.mem_cons_of_mem _ (List.mem_cons_self _ _)
  have hmem3 : (pat3 Dcls, repl3 ts) ∈ replacements a d n ts := by
    rw [replacements]
    exact List.mem_cons_of_mem _ (List.mem_cons_of_mem _
      (List.mem_cons_self _ _))
  have hfix1 := mix_fix _ (pat1 Ucls) (repl1 a d) hmem1 hb1 _ hmix
  have hfix2 := mix_fix _ (pat2 Ucls) (repl2 n) hmem2 hb2 _ hmix
  have hfix3 := mix_fix _ (pat3 Dcls) (repl3 ts) hmem3 hb3 _ hmix
  rw [updateReadme_eq a d n ts (updateReadme a d n ts content), hfix1, hfix2,
    hfix3]
